import Mathlib

/-!
vorduin/mps: minimal perfect hashing and Hashsort.

A shallow embedding of `hash.go` and `mps.go`.

* Go's `uint32` and `uint64` values are natural numbers kept below `2 ^ 32` and
  `2 ^ 64`; every operation that can overflow reduces explicitly.
* A slice is a list.  Indexing a slice out of range and dividing by zero are
  run-time panics in Go; the operations that can panic return `Option`, with
  `none` for the panic.
* The loops of `newHashFunc` and `Hashsort` need not terminate; they take a fuel
  argument and the three possible results are told apart by `Outcome`.
-/

namespace MPS

/-! ## Machine arithmetic -/

/-- The bound of `uint32`. -/
def U32 : Nat := 2 ^ 32

/-- The bound of `uint64`. -/
def U64 : Nat := 2 ^ 64

/-- Go's `x << r` on `uint32`: bits shifted out are lost, a count of 32 or more gives 0. -/
def shl32 (v r : Nat) : Nat := if r < 32 then (v <<< r) % U32 else 0

/-- Go's `x >> r` on `uint32`: a count of 32 or more gives 0. -/
def shr32 (v r : Nat) : Nat := if r < 32 then v >>> r else 0

/-- Go's `x << r` on `uint64`: bits shifted out are lost, a count of 64 or more gives 0. -/
def shl64 (v r : Nat) : Nat := if r < 64 then (v <<< r) % U64 else 0

/-- Go's `x - y` on `uint32`. -/
def sub32 (x y : Nat) : Nat := (x + U32 - y % U32) % U32

/-- Go's bit clear `x &^ y`: the bits of `x` that are set in `y` are removed. -/
def andNot (x y : Nat) : Nat := x - (x &&& y)

/-- Number of set bits among the `n` lowest bits of `w`. -/
def bitsBelow (w n : Nat) : Nat := ((List.range n).filter (fun j => w.testBit j)).length

/-- The library function `bits.OnesCount64`: number of set bits of a 64-bit word. -/
def onesCount64 (w : Nat) : Nat := bitsBelow w 64

/-- `rotl` of hash.go: `(v << r) | (v >> (32 - r))` on `uint32`. -/
def rotl (v r : Nat) : Nat := shl32 v r ||| shr32 v (sub32 32 r)

/-- `xorshift` of hash.go, on `uint64`. -/
def xorshift (x : Nat) : Nat :=
  let x1 := x ^^^ (x >>> 12)
  let x2 := x1 ^^^ shl64 x1 25
  let x3 := x2 ^^^ (x2 >>> 27)
  (x3 * 2685821657736338717) % U64

/-! ## bitvec -/

/-- `bitvec` of hash.go: a slice of 64-bit words. -/
abbrev bitvec := List Nat

/-- `newBitvec` of hash.go: `make([]uint64, uint(size+63)/64)`; the sum is a `uint32`. -/
def newBitvec (size : Nat) : bitvec := List.replicate (((size + 63) % U32) / 64) 0

/-- `bitvec.bit` of hash.go; `none` when the word index is out of range. -/
def bit (b : bitvec) (n : Nat) : Option Nat :=
  let shift := n % 64
  match b[n / 64]? with
  | none => none
  | some nbit => some ((nbit &&& (1 <<< shift)) >>> shift)

/-- `bitvec.setBit` of hash.go; `none` when the word index is out of range. -/
def setBit (b : bitvec) (n : Nat) : Option bitvec :=
  match b[n / 64]? with
  | none => none
  | some w => some (b.set (n / 64) (w ||| (1 <<< (n % 64))))

/-! ## Construction of the hash function -/

/-- `hashFunc` of hash.go. -/
structure hashFunc where
  bits : List bitvec
  ranks : List bitvec
  deriving DecidableEq, Repr

/-- The table size of a level with `m` working keys:
`size := uint32(gamma * float64(m)); size = (size + 63) &^ 63` with `gamma = 2`.
The conversion to `uint32` is exact for `2 * m < 2 ^ 32`; beyond that Go leaves the
result to the implementation, and the usual one (amd64) keeps the low 32 bits. -/
def tableSize (m : Nat) : Nat := andNot (((2 * m) % U32 + 63) % U32) 63

/-- The bucket of a key at a level, for a non-zero table size:
`(h1 ^ rotl(h2, level)) % size` with `h1, h2 := uint32(hash), uint32(hash>>32)`. -/
def bucket (k level size : Nat) : Nat :=
  let hash := xorshift k
  let h1 := hash % U32
  let h2 := (hash >>> 32) % U32
  (h1 ^^^ rotl h2 level) % size

/-- The index computed in the two loops of `newHashFunc`; `none` is the division by
zero of `% size`. -/
def keyIdx (k level size : Nat) : Option Nat :=
  if size = 0 then none else some (bucket k level size)

/-- Body of the first loop over the keys in `newHashFunc` (lines 113-128), on the
pair `(a, collide)`. -/
def pass1Step (level size : Nat) (st : bitvec × bitvec) (k : Nat) : Option (bitvec × bitvec) :=
  match keyIdx k level size with
  | none => none
  | some idx =>
    match bit st.2 idx with
    | none => none
    | some cb =>
      if cb = 1 then some st
      else
        match bit st.1 idx with
        | none => none
        | some ab =>
          if ab = 1 then
            match setBit st.2 idx with
            | none => none
            | some c => some (st.1, c)
          else
            match setBit st.1 idx with
            | none => none
            | some a => some (a, st.2)

/-- The first loop over the keys in `newHashFunc`. -/
def pass1 (level size : Nat) (keys : List Nat) (a collide : bitvec) : Option (bitvec × bitvec) :=
  keys.foldlM (pass1Step level size) (a, collide)

/-- Body of the second loop over the keys in `newHashFunc` (lines 131-142), on the
pair `(redo, bv)`.  The keys appended to `redo` are kept as a list of their own;
`pass2Shared` below is the same loop on the storage that `redo` shares with `keys`. -/
def pass2Step (level size : Nat) (collide : bitvec) (st : List Nat × bitvec) (k : Nat) :
    Option (List Nat × bitvec) :=
  match keyIdx k level size with
  | none => none
  | some idx =>
    match bit collide idx with
    | none => none
    | some cb =>
      if cb = 1 then some (st.1 ++ [k], st.2)
      else
        match setBit st.2 idx with
        | none => none
        | some bv => some (st.1, bv)

/-- The second loop over the keys in `newHashFunc`; `redo` is empty when it starts
(`nil` at the first level, `redo[:0]` afterwards). -/
def pass2 (level size : Nat) (collide : bitvec) (keys : List Nat) (bv : bitvec) :
    Option (List Nat × bitvec) :=
  keys.foldlM (pass2Step level size collide) ([], bv)

/-- The second loop on shared storage, as it runs from the second level on: `keys`
is `buf[0:n]` and `redo` is `buf[:0]` over the same array, so `append(redo, k)`
writes `buf[c]` where `c` is the number of keys deferred so far.  The state is
`(buf, c, bv)` and `i` is the position being read. -/
def pass2SharedStep (level size : Nat) (collide : bitvec) (st : List Nat × Nat × bitvec)
    (i : Nat) : Option (List Nat × Nat × bitvec) :=
  match st.1[i]? with
  | none => none
  | some k =>
    match keyIdx k level size with
    | none => none
    | some idx =>
      match bit collide idx with
      | none => none
      | some cb =>
        if cb = 1 then some (st.1.set st.2.1 k, st.2.1 + 1, st.2.2)
        else
          match setBit st.2.2 idx with
          | none => none
          | some bv => some (st.1, st.2.1, bv)

/-- The second loop over `buf[0:n]` with `redo` sharing the storage of `buf`. -/
def pass2Shared (level size : Nat) (collide : bitvec) (buf : List Nat) (n : Nat) (bv : bitvec) :
    Option (List Nat × Nat × bitvec) :=
  (List.range n).foldlM (pass2SharedStep level size collide) (buf, 0, bv)

/-- The variables of `newHashFunc` that live across iterations of its level loop. -/
structure BuildState where
  keys : List Nat
  size : Nat
  a : bitvec
  collide : bitvec
  level : Nat
  bits : List bitvec
  deriving DecidableEq, Repr

/-- The state of `newHashFunc` when the level loop is first reached (lines 102-110). -/
def initState (keys : List Nat) : BuildState :=
  let size := tableSize keys.length
  { keys := keys, size := size, a := newBitvec size, collide := newBitvec size,
    level := 0, bits := [] }

/-- One iteration of the level loop of `newHashFunc` (lines 113-151).  The new `a`
is `newBitvec(uint32(len(a)))`, from the number of words of the old one, and the new
`collide` is made from the number of words of the new `a`. -/
def levelStep (st : BuildState) : Option BuildState :=
  match pass1 st.level st.size st.keys st.a st.collide with
  | none => none
  | some ac =>
    match pass2 st.level st.size ac.2 st.keys (newBitvec st.size) with
    | none => none
    | some rb =>
      let a2 := newBitvec (ac.1.length % U32)
      some { keys := rb.1, size := tableSize rb.1.length, a := a2,
             collide := newBitvec (a2.length % U32),
             level := (st.level + 1) % U32, bits := st.bits ++ [rb.2] }

/-- How a run ends: with a value, with a run-time panic, or not within the fuel. -/
inductive Outcome (α : Type) where
  | ok : α → Outcome α
  | panic : Outcome α
  | diverge : Outcome α
  deriving DecidableEq, Repr

/-- The level loop `for len(keys) > 0` of `newHashFunc`, at most `fuel` iterations. -/
def buildLoop : Nat → BuildState → Outcome (List bitvec)
  | 0, st => if st.keys.length = 0 then .ok st.bits else .diverge
  | fuel + 1, st =>
    if st.keys.length = 0 then .ok st.bits
    else
      match levelStep st with
      | none => .panic
      | some st1 => buildLoop fuel st1

/-- Inner loop of `configRanks` over the words of one level, on `(r, pop)`; the start
index of the remaining words is `i`. -/
def rankWords : Nat → List Nat → List Nat × Nat → List Nat × Nat
  | _, [], st => st
  | i, v :: vs, (r, pop) =>
    let r1 := if i % 8 = 0 then r ++ [pop] else r
    rankWords (i + 1) vs (r1, (pop + onesCount64 v) % U64)

/-- Outer loop of `configRanks`; `pop` runs on from one level to the next. -/
def rankLevels : List bitvec → Nat → List bitvec
  | [], _ => []
  | bv :: rest, pop =>
    let res := rankWords 0 bv ([], pop)
    res.1 :: rankLevels rest res.2

/-- `configRanks` of hash.go, as the value of `hf.ranks` it leaves. -/
def configRanks (bits : List bitvec) : List bitvec := rankLevels bits 0

/-- `newHashFunc` of hash.go with at most `fuel` levels. -/
def newHashFunc (fuel : Nat) (keys : List Nat) : Outcome hashFunc :=
  match buildLoop fuel (initState keys) with
  | .ok bits => .ok { bits := bits, ranks := configRanks bits }
  | .panic => .panic
  | .diverge => .diverge

/-! ## Query -/

/-- Body of the loop `for j := (idx / 64) &^ 7; j < idx/64; j++` of `query`:
`rank += uint64(bits.OnesCount64(bv[j]))`. -/
def rankSpanStep (bv : bitvec) (r j : Nat) : Option Nat :=
  match bv[j]? with
  | none => none
  | some w => some ((r + onesCount64 w) % U64)

/-- The loop `for j := (idx / 64) &^ 7; j < idx/64; j++` of `query`. -/
def rankSpan (bv : bitvec) (idx : Nat) (rank : Nat) : Option Nat :=
  let start := andNot (idx / 64) 7
  (List.range' start (idx / 64 - start)).foldlM (rankSpanStep bv) rank

/-- The loop over the levels in `query`, from level `i` on, `rest` being `hf.bits[i:]`. -/
def queryFrom (ranks : List bitvec) (h1 h2 : Nat) : Nat → List bitvec → Option Nat
  | _, [] => some 0
  | i, bv :: rest =>
    let m := (bv.length * 64) % U32
    if m = 0 then none
    else
      let idx := (h1 ^^^ rotl h2 (i % U32)) % m
      match bit bv idx with
      | none => none
      | some b =>
        if b = 0 then queryFrom ranks h1 h2 (i + 1) rest
        else
          match ranks[i]? with
          | none => none
          | some r =>
            match r[idx / 512]? with
            | none => none
            | some rank0 =>
              match rankSpan bv idx rank0 with
              | none => none
              | some rank1 =>
                match bv[idx / 64]? with
                | none => none
                | some w =>
                  some ((((rank1 + onesCount64 (shl64 w (sub32 64 (idx % 64)))) % U64) + 1) % U64)

/-- `hashFunc.query` of hash.go. -/
def query (hf : hashFunc) (key : Nat) : Option Nat :=
  let hash := xorshift key
  queryFrom hf.ranks (hash % U32) ((hash >>> 32) % U32) 0 hf.bits

/-! ## hashmap and Hashsort (element type `int`, 64 bits) -/

/-- The conversion `uint64(x)` of a 64-bit signed integer. -/
def toU64 (x : Int) : Nat := (x % 18446744073709551616).toNat

/-- The 64-bit signed integer that Go's wrapping arithmetic leaves for `x`. -/
def wrapI64 (x : Int) : Int := (x + 9223372036854775808) % 18446744073709551616 - 9223372036854775808

/-- `hashmap` of hash.go. -/
structure hashmap where
  hf : hashFunc
  vals : List Int
  deriving DecidableEq, Repr

/-- `newHashmap` of hash.go. -/
def newHashmap (fuel : Nat) (keys : List Int) : Outcome hashmap :=
  match newHashFunc fuel (keys.map toU64) with
  | .ok hf => .ok { hf := hf, vals := List.replicate keys.length 0 }
  | .panic => .panic
  | .diverge => .diverge

/-- `hashmap.index` of hash.go. -/
def hashmap.index (hm : hashmap) (key : Nat) : Option Nat := query hm.hf key

/-- `hashmap.lookup` of hash.go: `hm.vals[idx]`; `none` is the index out of range. -/
def hashmap.lookup (hm : hashmap) (idx : Nat) : Option Int := hm.vals[idx]?

/-- `hashmap.set` of hash.go: `hm.vals[idx] = val`; `none` is the index out of range. -/
def hashmap.set (hm : hashmap) (idx : Nat) (val : Int) : Option hashmap :=
  if idx < hm.vals.length then some { hm with vals := hm.vals.set idx val } else none

/-- The update of `min` and `max` in the counting loop of `Hashsort` (lines 26-30). -/
def boundsStep (mm : Int × Int) (x : Int) : Int × Int :=
  if x < mm.1 then (x, mm.2) else if x > mm.2 then (mm.1, x) else mm

/-- The bounds `(min, max)` after the counting loop: both start as the zero value of
the element type (`var min, max T`). -/
def scanBounds (s : List Int) : Int × Int := s.foldl boundsStep (0, 0)

/-- Body of the counting loop of `Hashsort` (lines 21-30), on `(hm, (min, max))`. -/
def countStep (st : hashmap × Int × Int) (x : Int) : Option (hashmap × Int × Int) :=
  match st.1.index (toU64 x) with
  | none => none
  | some keyIdx =>
    match st.1.lookup keyIdx with
    | none => none
    | some n =>
      match st.1.set keyIdx (wrapI64 (n + 1)) with
      | none => none
      | some hm => some (hm, boundsStep st.2 x)

/-- The counting loop of `Hashsort`. -/
def countLoop (hm : hashmap) (s : List Int) : Option (hashmap × Int × Int) :=
  s.foldlM countStep (hm, 0, 0)

/-- The loop `for j := 0; j < int(n); j++` of `Hashsort`, on `(sorted, idx)`. -/
def emitCopies : Nat → Int → List Int × Nat → Option (List Int × Nat)
  | 0, _, st => some st
  | n + 1, v, st =>
    if st.2 < st.1.length then emitCopies n v (st.1.set st.2 v, st.2 + 1) else none

/-- The loop `for i := min; i <= max; i++` of `Hashsort`, at most `fuel` iterations. -/
def emitLoop (hm : hashmap) : Nat → Int → Int → List Int × Nat → Outcome (List Int)
  | 0, i, max, st => if i ≤ max then .diverge else .ok st.1
  | fuel + 1, i, max, st =>
    if i ≤ max then
      match hm.index (toU64 i) with
      | none => .panic
      | some keyIdx =>
        if keyIdx ≠ 0 then
          match hm.lookup keyIdx with
          | none => .panic
          | some n =>
            match emitCopies n.toNat i st with
            | none => .panic
            | some st1 => emitLoop hm fuel (wrapI64 (i + 1)) max st1
        else emitLoop hm fuel (wrapI64 (i + 1)) max st
    else .ok st.1

/-- What a call of `Hashsort` leaves: the slice it returns (`none` is `nil`) and the
hashmap it built, if it built one. -/
structure SortRun where
  result : Option (List Int)
  built : Option hashmap
  deriving DecidableEq, Repr

/-- `Hashsort` of mps.go on `[]int`; the argument `none` is the `nil` slice. -/
def HashsortRun (fuel : Nat) : Option (List Int) → Outcome SortRun
  | none => .ok { result := none, built := none }
  | some s =>
    if s.length = 0 then .ok { result := some [], built := none }
    else
      match newHashmap fuel s with
      | .panic => .panic
      | .diverge => .diverge
      | .ok hm =>
        match countLoop hm s with
        | none => .panic
        | some st =>
          match emitLoop st.1 fuel st.2.1 st.2.2 (List.replicate s.length 0, 0) with
          | .panic => .panic
          | .diverge => .diverge
          | .ok sorted => .ok { result := some sorted, built := some st.1 }

/-- The value returned by `Hashsort`. -/
def Hashsort (fuel : Nat) (s : Option (List Int)) : Outcome (Option (List Int)) :=
  match HashsortRun fuel s with
  | .ok r => .ok r.result
  | .panic => .panic
  | .diverge => .diverge

/-! ## Definitions used to state the properties -/

/-- Bit `n` of a bit vector, read from the word list. -/
def testAt (b : bitvec) (n : Nat) : Bool := (b.getD (n / 64) 0).testBit (n % 64)

/-- The state of `newHashFunc` after `n` iterations of its level loop were executed;
`none` when the loop has exited or panicked before. -/
def afterLevels : Nat → BuildState → Option BuildState
  | 0, st => some st
  | n + 1, st =>
    if st.keys.length = 0 then none
    else
      match levelStep st with
      | none => none
      | some st1 => afterLevels n st1

/-- Number of occurrences in `keys` whose bucket, for a level and a table size, is `j`. -/
def occ (keys : List Nat) (level size j : Nat) : Nat :=
  keys.countP (fun k => decide (bucket k level size = j))

/-- Number of set bits of a bit vector at positions below `n`, counted bit by bit. -/
def rankBrute (b : bitvec) (n : Nat) : Nat := ((List.range n).filter (fun j => testAt b j)).length

/-- Number of set bits of a bit vector. -/
def setBits (b : bitvec) : Nat := rankBrute b (64 * b.length)

/-- The keys of a working list that the level defers: those whose bucket is shared with
another occurrence. -/
def deferred (keys : List Nat) (level size : Nat) : List Nat :=
  keys.filter (fun k => decide (2 ≤ occ keys level size (bucket k level size)))

/-- Sum of the set-bit counts of a list of words. -/
def popWords (ws : List Nat) : Nat := (ws.map onesCount64).sum

/-- The index of `key` at level `i`, in the bit vector `bv` of that level:
`(h1 xor rotl(h2, i)) mod (64 * len(bv))`, the level being passed as a `uint32`. -/
def levelIdx (bv : bitvec) (key i : Nat) : Nat := bucket key (i % U32) (64 * bv.length)

/-- Whether the occupancy bit of level `i` at the index of `key` is set. -/
def hit (bv : bitvec) (key i : Nat) : Bool := testAt bv (levelIdx bv key i)

/-- The result the specification gives to a query, over the levels `rest` that start at
level `i`, `prior` being the number of set bits in the levels before: 0 when no level
has the key's bit set, and for the first level that has it, the set bits of all earlier
levels plus the set bits below the key's index in that level, plus 1. -/
def querySpecFrom (key : Nat) : Nat → Nat → List bitvec → Nat
  | _, _, [] => 0
  | i, prior, bv :: rest =>
    if hit bv key i then prior + rankBrute bv (levelIdx bv key i) + 1
    else querySpecFrom key (i + 1) (prior + setBits bv) rest

/-- The result the specification gives to `query`. -/
def querySpec (bits : List bitvec) (key : Nat) : Nat := querySpecFrom key 0 0 bits

/-- The bit vectors `bvs` are those the level loop builds, one a level, for the working
list `keys` from level `lvl` on: each level's table size is that of its working list,
its bit `j` is set when exactly one occurrence has bucket `j`, and the deferred
occurrences are the working list of the next level, until none is left. -/
inductive Levels : Nat → List Nat → List bitvec → Prop where
  | done (lvl : Nat) : Levels lvl [] []
  | level (lvl : Nat) (keys : List Nat) (bv : bitvec) (bvs : List bitvec)
      (hne : keys ≠ [])
      (hsz : tableSize keys.length ≠ 0)
      (hlen : 64 * bv.length = tableSize keys.length)
      (hbit : ∀ j, testAt bv j = decide (occ keys (lvl % U32) (tableSize keys.length) j = 1))
      (hrest : Levels (lvl + 1) (deferred keys (lvl % U32) (tableSize keys.length)) bvs) :
      Levels lvl keys (bv :: bvs)

/-! ## Bit vectors -/

theorem foldlM_cons_option {α β : Type} (f : β → α → Option β) (s : β) (k : α) (ks : List α) :
    (k :: ks).foldlM f s = (f s k).bind (fun s1 => ks.foldlM f s1) := by
  simp [List.foldlM_cons]

theorem foldlM_append_option {α β : Type} (f : β → α → Option β) (s : β) (l1 l2 : List α) :
    (l1 ++ l2).foldlM f s = (l1.foldlM f s).bind (fun s1 => l2.foldlM f s1) := by
  simp [List.foldlM_append]

theorem foldlM_singleton_option {α β : Type} (f : β → α → Option β) (s : β) (k : α) :
    [k].foldlM f s = f s k := by
  simp [List.foldlM_cons]

theorem word_bit (w s : Nat) : (w &&& (1 <<< s)) >>> s = (w.testBit s).toNat := by
  apply Nat.eq_of_testBit_eq
  intro i
  rw [Nat.testBit_shiftRight, Nat.testBit_and, Nat.one_shiftLeft, Nat.testBit_two_pow]
  cases h : w.testBit s <;> cases i <;> simp [h, Nat.testBit_succ]
  

theorem getElem?_eq_getD {b : bitvec} {i : Nat} (h : i < b.length) : b[i]? = some (b.getD i 0) := by
  simp [List.getD, List.getElem?_eq_getElem h]

theorem bit_eq_testAt {b : bitvec} {n : Nat} (h : n / 64 < b.length) :
    bit b n = some (testAt b n).toNat := by
  unfold bit testAt
  rw [getElem?_eq_getD h]
  simp only [word_bit]

theorem bit_eq_none {b : bitvec} {n : Nat} (h : b.length ≤ n / 64) : bit b n = none := by
  simp [bit, List.getElem?_eq_none h]

theorem bit_isSome {b : bitvec} {n v : Nat} (h : bit b n = some v) : n / 64 < b.length := by
  by_contra hc
  rw [bit_eq_none (Nat.le_of_not_lt hc)] at h
  cases h

theorem setBit_eq {b : bitvec} {n : Nat} (h : n / 64 < b.length) :
    setBit b n = some (b.set (n / 64) (b.getD (n / 64) 0 ||| (1 <<< (n % 64)))) := by
  unfold setBit
  rw [getElem?_eq_getD h]

theorem setBit_eq_none {b : bitvec} {n : Nat} (h : b.length ≤ n / 64) : setBit b n = none := by
  simp [setBit, List.getElem?_eq_none h]

theorem setBit_isSome {b b1 : bitvec} {n : Nat} (h : setBit b n = some b1) : n / 64 < b.length := by
  by_contra hc
  rw [setBit_eq_none (Nat.le_of_not_lt hc)] at h
  cases h

theorem length_setBit {b b1 : bitvec} {n : Nat} (h : setBit b n = some b1) :
    b1.length = b.length := by
  have hn := setBit_isSome h
  rw [setBit_eq hn] at h
  cases h
  simp

theorem pos_eq_iff (m n : Nat) : m = n ↔ (m / 64 = n / 64 ∧ m % 64 = n % 64) := by
  omega

theorem testAt_setBit {b b1 : bitvec} {n : Nat} (h : setBit b n = some b1) (m : Nat) :
    testAt b1 m = (testAt b m || decide (m = n)) := by
  have hn := setBit_isSome h
  rw [setBit_eq hn] at h
  cases h
  unfold testAt
  by_cases hw : m / 64 = n / 64
  · rw [hw]
    simp only [List.getD_eq_getElem?_getD, List.getElem?_set_self hn, Option.getD_some,
      Nat.testBit_or, Nat.one_shiftLeft, Nat.testBit_two_pow]
    by_cases hs : m % 64 = n % 64
    · have : m = n := by omega
      simp [this]
    · have : m ≠ n := by omega
      have hs2 : ¬ (n % 64 = m % 64) := fun e => hs e.symm
      simp [this, hs2]
  · have : m ≠ n := by intro e; exact hw (by rw [e])
    have hw2 : n / 64 ≠ m / 64 := fun e => hw e.symm
    simp [List.getD_eq_getElem?_getD, List.getElem?_set_ne hw2, this]

/-! ## Words and shifts -/

theorem andNot_63 (x : Nat) : andNot x 63 = x / 64 * 64 := by
  unfold andNot
  have h : x &&& 63 = x % 64 := Nat.and_pow_two_sub_one_eq_mod x 6
  rw [h]
  omega

theorem andNot_7 (x : Nat) : andNot x 7 = x / 8 * 8 := by
  unfold andNot
  have h : x &&& 7 = x % 8 := Nat.and_pow_two_sub_one_eq_mod x 3
  rw [h]
  omega

theorem length_newBitvec (size : Nat) : (newBitvec size).length = ((size + 63) % U32) / 64 := by
  simp [newBitvec]

theorem testAt_newBitvec (size n : Nat) : testAt (newBitvec size) n = false := by
  unfold testAt newBitvec
  rw [List.getD_eq_getElem?_getD]
  by_cases h : n / 64 < ((size + 63) % U32) / 64
  · rw [List.getElem?_eq_getElem (by simpa using h)]
    simp
  · rw [List.getElem?_eq_none (by simpa using h)]
    simp

theorem filter_range_shift (p : Nat → Bool) (s t : Nat) :
    ((List.range (s + t)).filter (fun j => decide (s ≤ j) && p (j - s))).length
      = ((List.range t).filter p).length := by
  induction t with
  | zero =>
    have : (List.range s).filter (fun j => decide (s ≤ j) && p (j - s)) = [] := by
      rw [List.filter_eq_nil_iff]
      intro a ha
      have := List.mem_range.mp ha
      simp
      omega
    simp [this]
  | succ t ih =>
    rw [← Nat.add_assoc, List.range_succ, List.range_succ, List.filter_append, List.filter_append,
      List.length_append, List.length_append, ih]
    by_cases hp : p t = true <;> simp [List.filter_cons, hp]

theorem testBit_shl64 (w s j : Nat) (hs : s < 64) :
    (shl64 w s).testBit j = (decide (j < 64) && (decide (s ≤ j) && w.testBit (j - s))) := by
  unfold shl64 U64
  rw [if_pos hs, Nat.testBit_mod_two_pow, Nat.testBit_shiftLeft]

theorem bitsBelow_zero (n : Nat) : bitsBelow 0 n = 0 := by
  simp [bitsBelow]

theorem onesCount64_shl64 (w k : Nat) (hk : k < 64) :
    onesCount64 (shl64 w (sub32 64 k)) = bitsBelow w k := by
  have hsub : sub32 64 k = 64 - k := by
    unfold sub32 U32
    omega
  rw [hsub]
  by_cases h0 : k = 0
  · subst h0
    simp [shl64, onesCount64, bitsBelow]
  · have hs : 64 - k < 64 := by omega
    unfold onesCount64 bitsBelow
    have e : (List.range 64).filter (fun j => (shl64 w (64 - k)).testBit j)
        = (List.range ((64 - k) + k)).filter
            (fun j => decide (64 - k ≤ j) && w.testBit (j - (64 - k))) := by
      have e64 : (64 - k) + k = 64 := by omega
      rw [e64]
      apply List.filter_congr
      intro j hj
      have := List.mem_range.mp hj
      rw [testBit_shl64 w _ j hs]
      simp [this]
    rw [e, filter_range_shift]

/-- C20: for every 64-bit word `w` and every position `idx`, the in-word term of the
rank query, `OnesCount64(w << (64 - idx % 64))`, is the number of set bits of `w` at
bit positions strictly below `idx % 64`; for `idx % 64 = 0` the shift amount is 64,
the shifted word is 0 and the term is 0. -/
theorem inword_rank_term (w idx : Nat) :
    onesCount64 (shl64 w (sub32 64 (idx % 64))) = bitsBelow w (idx % 64) ∧
    (idx % 64 = 0 → sub32 64 (idx % 64) = 64 ∧ shl64 w (sub32 64 (idx % 64)) = 0 ∧
      onesCount64 (shl64 w (sub32 64 (idx % 64))) = 0) := by
  refine ⟨onesCount64_shl64 w _ (Nat.mod_lt _ (by norm_num)), ?_⟩
  intro h
  rw [h]
  have e : sub32 64 0 = 64 := by decide
  rw [e]
  refine ⟨rfl, by simp [shl64], by simp [shl64, onesCount64, bitsBelow]⟩

theorem testBit_false_of_lt_32 {v j : Nat} (hv : v < 2 ^ 32) (hj : 32 ≤ j) : v.testBit j = false := by
  apply Nat.testBit_eq_false_of_lt
  exact lt_of_lt_of_le hv (Nat.pow_le_pow_right (by norm_num) hj)

/-- C19: for every 32-bit `v` and every `r < 32`, `rotl(v, r)` is the 32-bit left
rotation of `v` by `r`: it is a 32-bit value whose bit `j` is bit `(j + 32 - r) % 32`
of `v`; for `r = 0` the right shift by 32 contributes 0 and the result is `v`. -/
theorem rotl_is_rotation (v r : Nat) (hv : v < 2 ^ 32) (hr : r < 32) :
    rotl v r < 2 ^ 32 ∧
    (∀ j, j < 32 → (rotl v r).testBit j = v.testBit ((j + 32 - r) % 32)) ∧
    shr32 v (sub32 32 0) = 0 ∧ rotl v 0 = v := by
  have hsub : sub32 32 r = 32 - r := by
    unfold sub32 U32
    omega
  have hbit : ∀ j, (rotl v r).testBit j
      = (decide (j < 32) && v.testBit ((j + 32 - r) % 32)) := by
    intro j
    unfold rotl shl32 shr32 U32
    rw [hsub, if_pos hr, Nat.testBit_or, Nat.testBit_mod_two_pow, Nat.testBit_shiftLeft]
    by_cases h0 : r = 0
    · subst h0
      by_cases hj : j < 32
      · have e0 : (j + 32 - 0) % 32 = j := by omega
        rw [e0]
        simp [hj]
      · have hj2 : 32 ≤ j := Nat.le_of_not_lt hj
        simp [hj]
    · have hlt : 32 - r < 32 := by omega
      rw [if_pos hlt, Nat.testBit_shiftRight]
      by_cases hj : j < 32
      · by_cases hjr : r ≤ j
        · have e1 : (j + 32 - r) % 32 = j - r := by omega
          have e2 : v.testBit (32 - r + j) = false := testBit_false_of_lt_32 hv (by omega)
          simp [hj, hjr, e1, e2]
        · have e1 : (j + 32 - r) % 32 = 32 - r + j := by omega
          simp [hj, hjr, e1]
      · have e2 : v.testBit (32 - r + j) = false := testBit_false_of_lt_32 hv (by omega)
        simp [hj, e2]
  have e32 : sub32 32 0 = 32 := by decide
  refine ⟨?_, ?_, by simp [e32, shr32], ?_⟩
  · apply Nat.lt_pow_two_of_testBit
    intro j hj
    rw [hbit j]
    have : ¬ j < 32 := by omega
    simp [this]
  · intro j hj
    rw [hbit j]
    simp [hj]
  · unfold rotl shl32 shr32 U32
    rw [e32]
    simp
    exact hv

/-- Witness of `rotl_is_rotation`. -/
theorem rotl_is_rotation_witness :
    rotl 2147483649 1 < 2 ^ 32 ∧
    (∀ j, j < 32 → (rotl 2147483649 1).testBit j = Nat.testBit 2147483649 ((j + 32 - 1) % 32)) ∧
    shr32 2147483649 (sub32 32 0) = 0 ∧ rotl 2147483649 0 = 2147483649 :=
  rotl_is_rotation 2147483649 1 (by norm_num) (by norm_num)

/-- Witness of `inword_rank_term`. -/
theorem inword_rank_term_witness :
    onesCount64 (shl64 13 (sub32 64 (128 % 64))) = bitsBelow 13 (128 % 64) ∧
    (128 % 64 = 0 → sub32 64 (128 % 64) = 64 ∧ shl64 13 (sub32 64 (128 % 64)) = 0 ∧
      onesCount64 (shl64 13 (sub32 64 (128 % 64))) = 0) :=
  inword_rank_term 13 128

/-! ## bitvec operations -/

theorem setBit_idem {b b1 : bitvec} {n : Nat} (h : setBit b n = some b1) : setBit b1 n = some b1 := by
  have hn := setBit_isSome h
  have hn1 : n / 64 < b1.length := by rw [length_setBit h]; exact hn
  rw [setBit_eq hn] at h
  cases h
  rw [setBit_eq hn1]
  congr 1
  apply List.ext_getElem?
  intro i
  by_cases hi : n / 64 = i
  · subst hi
    simp only [List.getD_eq_getElem?_getD, List.length_set, List.getElem?_set_self hn,
      Option.getD_some, Nat.or_assoc, Nat.or_self]
    rw [List.getElem?_set_self (by simpa using hn)]
  · rw [List.getElem?_set_ne hi]

/-- C10: for every bitvec `b` and in-range positions `n` and `m`: `bit(n)` is 0 or 1;
`setBit(n)` succeeds and afterwards `bit(n) = 1`, `bit(m)` is unchanged for every
`m != n`, and a second `setBit(n)` leaves the vector as the first one did. -/
theorem bit_setBit_laws (b : bitvec) (n m : Nat) (hn : n / 64 < b.length)
    (hm : m / 64 < b.length) :
    (bit b n = some 0 ∨ bit b n = some 1) ∧
    ∃ b1, setBit b n = some b1 ∧ bit b1 n = some 1 ∧ (m ≠ n → bit b1 m = bit b m) ∧
      setBit b1 n = some b1 := by
  refine ⟨?_, ?_⟩
  · rw [bit_eq_testAt hn]
    cases testAt b n <;> simp
  · have hs := setBit_eq hn
    refine ⟨_, hs, ?_, ?_, setBit_idem hs⟩
    · have hn1 : n / 64 < (b.set (n / 64) (b.getD (n / 64) 0 ||| (1 <<< (n % 64)))).length := by
        simpa using hn
      rw [bit_eq_testAt hn1, testAt_setBit hs]
      simp
    · intro hne
      have hm1 : m / 64 < (b.set (n / 64) (b.getD (n / 64) 0 ||| (1 <<< (n % 64)))).length := by
        simpa using hm
      rw [bit_eq_testAt hm1, bit_eq_testAt hm, testAt_setBit hs]
      simp [hne]

/-- Witness of `bit_setBit_laws`. -/
theorem bit_setBit_laws_witness :
    (bit [0, 5] 70 = some 0 ∨ bit [0, 5] 70 = some 1) ∧
    ∃ b1, setBit [0, 5] 70 = some b1 ∧ bit b1 70 = some 1 ∧
      ((3 : Nat) ≠ 70 → bit b1 3 = bit [0, 5] 3) ∧ setBit b1 70 = some b1 :=
  bit_setBit_laws [0, 5] 70 3 (by decide) (by decide)

/-- C11, as stated, fails: for the 32-bit size `2 ^ 32 - 1` the sum `size + 63` wraps
and `newBitvec` returns no word at all, where `ceil(size / 64)` is `2 ^ 26`. -/
theorem newBitvec_wraps :
    4294967295 < U32 ∧ newBitvec 4294967295 = [] ∧ (4294967295 + 63) / 64 = 67108864 := by
  refine ⟨by decide, by decide, by decide⟩

/-- C11, amended: for every bit count `size` up to `2 ^ 32 - 64`, `newBitvec(size)`
has exactly `ceil(size / 64)` words, all zero, so its capacity is `size` rounded up to
a multiple of 64 and every bit of that capacity reads 0. -/
theorem newBitvec_zeroed (size : Nat) (h : size ≤ 4294967232) :
    (newBitvec size).length = (size + 63) / 64 ∧
    (∀ w ∈ newBitvec size, w = 0) ∧
    64 * (newBitvec size).length = (size + 63) / 64 * 64 ∧
    size ≤ 64 * (newBitvec size).length ∧ 64 * (newBitvec size).length < size + 64 ∧
    ∀ n, n < 64 * (newBitvec size).length → bit (newBitvec size) n = some 0 := by
  have hl : (newBitvec size).length = (size + 63) / 64 := by
    rw [length_newBitvec]
    unfold U32
    rw [Nat.mod_eq_of_lt (by omega)]
  refine ⟨hl, ?_, by omega, by omega, by omega, ?_⟩
  · intro w hw
    unfold newBitvec at hw
    exact (List.mem_replicate.mp hw).2
  · intro n hn
    rw [bit_eq_testAt (by omega), testAt_newBitvec]
    rfl

/-- Witness of `newBitvec_zeroed`. -/
theorem newBitvec_zeroed_witness :
    (newBitvec 65).length = (65 + 63) / 64 ∧
    (∀ w ∈ newBitvec 65, w = 0) ∧
    64 * (newBitvec 65).length = (65 + 63) / 64 * 64 ∧
    65 ≤ 64 * (newBitvec 65).length ∧ 64 * (newBitvec 65).length < 65 + 64 ∧
    ∀ n, n < 64 * (newBitvec 65).length → bit (newBitvec 65) n = some 0 :=
  newBitvec_zeroed 65 (by decide)

/-! ## Table sizes -/

theorem tableSize_eq (m : Nat) (h : m ≤ 2147483616) : tableSize m = (2 * m + 63) / 64 * 64 := by
  unfold tableSize U32
  rw [andNot_63, Nat.mod_eq_of_lt (by omega), Nat.mod_eq_of_lt (by omega)]

theorem keyIdx_eq (k level size : Nat) (h : size ≠ 0) :
    keyIdx k level size = some (bucket k level size) := by
  unfold keyIdx
  rw [if_neg h]

theorem bucket_lt (k level size : Nat) (h : size ≠ 0) : bucket k level size < size :=
  Nat.mod_lt _ (Nat.pos_of_ne_zero h)

theorem keyIdx_some (k level size : Nat) (h : size ≠ 0) :
    ∃ idx, keyIdx k level size = some idx ∧ idx < size :=
  ⟨_, keyIdx_eq k level size h, bucket_lt k level size h⟩

/-- C16, as stated, fails: a working list of `2 ^ 31 - 1` keys gets `2 * m = 2 ^ 32 - 2`,
the rounding `size + 63` wraps in `uint32` and the table size is 0, the modulus of a
division by zero. -/
theorem tableSize_wraps :
    0 < 2147483647 ∧ 2 * 2147483647 < U32 ∧ tableSize 2147483647 = 0 ∧
      keyIdx 5 0 (tableSize 2147483647) = none := by
  refine ⟨by decide, by decide, by decide, by decide⟩

/-- C16, amended: for every non-empty working key list of length `m <= 2 ^ 31 - 32`, at
the first level and at every later one, the table size is `2 * m` rounded up to the
next multiple of 64, hence a multiple of 64 that is at least 64, and the reduction
`% size` does not divide by zero. -/
theorem tableSize_rounds (m : Nat) (h0 : 0 < m) (h : m ≤ 2147483616) :
    tableSize m = (2 * m + 63) / 64 * 64 ∧ 64 ∣ tableSize m ∧ 64 ≤ tableSize m ∧
    2 * m ≤ tableSize m ∧ tableSize m < 2 * m + 64 ∧
    (∀ keys : List Nat, keys.length = m → (initState keys).size = tableSize m) ∧
    (∀ st st1, levelStep st = some st1 → st1.keys.length = m → st1.size = tableSize m) ∧
    ∀ k level, ∃ idx, keyIdx k level (tableSize m) = some idx ∧ idx < tableSize m := by
  have e := tableSize_eq m h
  refine ⟨e, ⟨(2 * m + 63) / 64, by rw [e, Nat.mul_comm]⟩, by omega, by omega, by omega, ?_, ?_, ?_⟩
  · intro keys hk
    simp [initState, hk]
  · intro st st1 hst hk
    unfold levelStep at hst
    split at hst
    · cases hst
    · split at hst
      · cases hst
      · cases hst
        simp at hk
        simp [hk]
  · intro k level
    exact keyIdx_some k level _ (by omega)

/-- Witness of `tableSize_rounds`. -/
theorem tableSize_rounds_witness :
    tableSize 33 = (2 * 33 + 63) / 64 * 64 ∧ 64 ∣ tableSize 33 ∧ 64 ≤ tableSize 33 ∧
    2 * 33 ≤ tableSize 33 ∧ tableSize 33 < 2 * 33 + 64 ∧
    (∀ keys : List Nat, keys.length = 33 → (initState keys).size = tableSize 33) ∧
    (∀ st st1, levelStep st = some st1 → st1.keys.length = 33 → st1.size = tableSize 33) ∧
    ∀ k level, ∃ idx, keyIdx k level (tableSize 33) = some idx ∧ idx < tableSize 33 :=
  tableSize_rounds 33 (by decide) (by decide)

/-! ## Hashsort: the cases decided by evaluation -/

theorem buildLoop_done (fuel : Nat) (st : BuildState) (h : st.keys.length = 0) :
    buildLoop fuel st = .ok st.bits := by
  cases fuel <;> simp [buildLoop, h]

theorem buildLoop_step (fuel : Nat) (st st1 : BuildState) (h : st.keys.length ≠ 0)
    (hs : levelStep st = some st1) : buildLoop (fuel + 1) st = buildLoop fuel st1 := by
  simp [buildLoop, h, hs]

theorem buildLoop_panic (fuel : Nat) (st : BuildState) (h : st.keys.length ≠ 0)
    (hs : levelStep st = none) : buildLoop (fuel + 1) st = .panic := by
  simp [buildLoop, h, hs]

/-- C3: `Hashsort(nil)` returns `nil`, `Hashsort` of a present zero-length slice returns
a present zero-length slice, the two results differ, and neither call builds a
hashmap, whatever the fuel. -/
theorem Hashsort_nil_and_empty (fuel : Nat) :
    Hashsort fuel none = .ok none ∧ Hashsort fuel (some []) = .ok (some []) ∧
    (Outcome.ok (none : Option (List Int)) ≠ .ok (some [])) ∧
    HashsortRun fuel none = .ok { result := none, built := none } ∧
    HashsortRun fuel (some []) = .ok { result := some [], built := none } := by
  refine ⟨rfl, rfl, by simp, rfl, rfl⟩

/-- C1, evaluated: on the input of the repository's own test, `[2, 1, -1, 0]`, the
hash function is built in one level and maps the keys to 4, 2, 3, 1; the first step of
the counting loop then reads `vals[4]` of a 4-element array, and `Hashsort` panics for
every fuel that lets the construction finish, instead of returning `[-1, 0, 1, 2]`. -/
theorem Hashsort_test_input_panics (fuel : Nat) :
    Hashsort (fuel + 1) (some [2, 1, -1, 0]) = .panic ∧
    Hashsort 0 (some [2, 1, -1, 0]) = .diverge ∧
    newHashFunc 1 ([2, 1, -1, 0].map toU64) = .ok { bits := [[35321815236609]], ranks := [[0]] } ∧
    ([2, 1, -1, 0].map toU64).map (query { bits := [[35321815236609]], ranks := [[0]] })
      = [some 4, some 2, some 3, some 1] := by
  have hst : levelStep (initState ([2, 1, -1, 0].map toU64))
      = some { keys := [], size := 0, a := [0], collide := [0], level := 1,
               bits := [[35321815236609]] } := by decide
  have hb : buildLoop (fuel + 1) (initState ([2, 1, -1, 0].map toU64))
      = .ok [[35321815236609]] := by
    rw [buildLoop_step fuel _ _ (by decide) hst, buildLoop_done _ _ (by decide)]
  have hc : countLoop
      { hf := { bits := [[35321815236609]], ranks := configRanks [[35321815236609]] },
        vals := List.replicate 4 0 } [2, 1, -1, 0] = none := by decide
  refine ⟨?_, by decide, by decide, by decide⟩
  simp only [Hashsort, HashsortRun, newHashmap, newHashFunc]
  rw [hb]
  simp only [List.length_cons, List.length_nil]
  rw [hc]
  simp

/-- C5, evaluated: for the hashmap built over the single key 5 (`n = 1`), the query of
5 is the index 1 = n, and `lookup(1)` and `set(1, v)` address `vals[1]`, one past the
end of the 1-element array, while `vals[idx - 1] = vals[0]` is the slot that exists; in
every hashmap, `lookup` and `set` at the index `n = len(vals)` are out of range. -/
theorem lookup_set_one_past_end :
    newHashmap 1 [5] = .ok { hf := { bits := [[268435456]], ranks := [[0]] }, vals := [0] } ∧
    hashmap.index { hf := { bits := [[268435456]], ranks := [[0]] }, vals := [0] } (toU64 5)
      = some 1 ∧
    hashmap.lookup { hf := { bits := [[268435456]], ranks := [[0]] }, vals := [0] } 1 = none ∧
    hashmap.set { hf := { bits := [[268435456]], ranks := [[0]] }, vals := [0] } 1 7 = none ∧
    hashmap.lookup { hf := { bits := [[268435456]], ranks := [[0]] }, vals := [0] } (1 - 1)
      = some 0 ∧
    ∀ (hm : hashmap) (v : Int),
      hm.lookup hm.vals.length = none ∧ hm.set hm.vals.length v = none := by
  refine ⟨by decide, by decide, by decide, by decide, by decide, ?_⟩
  intro hm v
  exact ⟨by simp [hashmap.lookup], by simp [hashmap.set]⟩

theorem scanBounds_sign (s : List Int) : (scanBounds s).1 ≤ 0 ∧ 0 ≤ (scanBounds s).2 := by
  have gen : ∀ (l : List Int) (mm : Int × Int), mm.1 ≤ 0 ∧ 0 ≤ mm.2 →
      (l.foldl boundsStep mm).1 ≤ 0 ∧ 0 ≤ (l.foldl boundsStep mm).2 := by
    intro l
    induction l with
    | nil => intro mm h; exact h
    | cons x xs ih =>
      intro mm h
      rw [List.foldl_cons]
      apply ih
      unfold boundsStep
      split
      · exact ⟨by omega, h.2⟩
      · split
        · exact ⟨h.1, by omega⟩
        · exact h
  exact gen s (0, 0) ⟨Int.le_refl _, Int.le_refl _⟩

theorem countLoop_bounds (s : List Int) :
    ∀ (hm : hashmap) (mm : Int × Int) (st : hashmap × Int × Int),
      s.foldlM countStep (hm, mm) = some st → st.2 = s.foldl boundsStep mm := by
  induction s with
  | nil =>
    intro hm mm st h
    simp only [List.foldlM_nil, pure, Option.some.injEq] at h
    rw [← h]
    rfl
  | cons x xs ih =>
    intro hm mm st h
    rw [foldlM_cons_option] at h
    cases hstep : countStep (hm, mm) x with
    | none => simp [hstep] at h
    | some st1 =>
      rw [hstep] at h
      simp only [Option.some_bind] at h
      have e : st1.2 = boundsStep mm x := by
        unfold countStep at hstep
        split at hstep
        · cases hstep
        · split at hstep
          · cases hstep
          · split at hstep
            · cases hstep
            · cases hstep
              rfl
      have := ih st1.1 st1.2 st h
      rw [this, e, List.foldl_cons]

theorem countLoop_split (hm : hashmap) (s : List Int) (k : Nat) :
    countLoop hm s
      = (countLoop hm (s.take k)).bind (fun st => (s.drop k).foldlM countStep st) := by
  unfold countLoop
  rw [← foldlM_append_option, List.take_append_drop]

/-- C15, evaluated on the states the counting loop reaches. On `[-5, -3, -9]` the
hashmap is built and the first iteration leaves `min = -5` and `max = 0`: the scan has
seen only `-5`, yet `max` is the zero it started from (the second iteration then
panics in `lookup`). On `[-5, -9, -3]` two iterations run and leave `(-9, 0)`; on
`[3, 7, 9]` two iterations run and leave `(0, 7)`, where `min` is the zero seed and not
3. In general the state after `k` iterations is that of the loop on the first `k`
elements, and whenever it is reached its bounds are `scanBounds` of these elements,
with `min <= 0 <= max`. -/
theorem counting_scan_zero_seeded :
    newHashmap 1 [-5, -3, -9]
      = .ok { hf := { bits := [[2233382993924]], ranks := [[0]] }, vals := [0, 0, 0] } ∧
    countLoop { hf := { bits := [[2233382993924]], ranks := [[0]] }, vals := [0, 0, 0] }
        ([-5, -3, -9].take 1)
      = some ({ hf := { bits := [[2233382993924]], ranks := [[0]] }, vals := [0, 1, 0] }, -5, 0) ∧
    countLoop { hf := { bits := [[2233382993924]], ranks := [[0]] }, vals := [0, 0, 0] }
        ([-5, -3, -9].take 2) = none ∧
    (∃ hm hm2, newHashmap 1 [-5, -9, -3] = .ok hm ∧
      countLoop hm ([-5, -9, -3].take 2) = some (hm2, -9, 0)) ∧
    (∃ hm hm2, newHashmap 2 [3, 7, 9] = .ok hm ∧
      countLoop hm ([3, 7, 9].take 2) = some (hm2, 0, 7)) ∧
    (∀ (hm : hashmap) (s : List Int) (k : Nat), countLoop hm s
      = (countLoop hm (s.take k)).bind (fun st => (s.drop k).foldlM countStep st)) ∧
    ∀ (hm : hashmap) (s : List Int) (k : Nat) (st : hashmap × Int × Int),
      countLoop hm (s.take k) = some st →
      st.2 = scanBounds (s.take k) ∧ st.2.1 ≤ 0 ∧ 0 ≤ st.2.2 := by
  refine ⟨by decide, by decide, by decide, ?_, ?_, countLoop_split, ?_⟩
  · exact ⟨hashmap.mk (hashFunc.mk [[2233382993924]] [[0]]) [0, 0, 0],
      hashmap.mk (hashFunc.mk [[2233382993924]] [[0]]) [0, 1, 1], by decide, by decide⟩
  · exact ⟨hashmap.mk (hashFunc.mk [[131072], [4398046773248]] [[0], [1]]) [0, 0, 0],
      hashmap.mk (hashFunc.mk [[131072], [4398046773248]] [[0], [1]]) [0, 1, 1],
      by decide, by decide⟩
  · intro hm s k st h
    have e := countLoop_bounds (s.take k) hm (0, 0) st h
    have hs := scanBounds_sign (s.take k)
    have e2 : st.2 = scanBounds (s.take k) := e
    rw [e2]
    exact ⟨rfl, hs.1, hs.2⟩

/-! ## The level counter -/

theorem levelStep_level {st st1 : BuildState} (h : levelStep st = some st1) :
    st1.level = (st.level + 1) % U32 ∧ st1.size = tableSize st1.keys.length ∧
    ∃ bv, st1.bits = st.bits ++ [bv] := by
  unfold levelStep at h
  split at h
  · cases h
  · split at h
    · cases h
    · cases h
      exact ⟨rfl, rfl, _, rfl⟩

/-- C17, as stated, fails: on the two equal keys `[5, 5]` the level loop executes 32
iterations without exiting, and the counter is 32 with the key list still non-empty, so
the next iteration passes 32 to `rotl`. -/
theorem level_reaches_32 :
    ∃ st, afterLevels 32 (initState [5, 5]) = some st ∧ st.level = 32 ∧ st.keys = [5, 5] := by
  refine ⟨{ keys := [5, 5], size := 64, a := [0], collide := [0], level := 32,
            bits := List.replicate 32 [0] }, by decide, rfl, rfl⟩

/-- C17, amended: in every run of `newHashFunc`, on every key list, the level counter
passed to `rotl` in the iteration that follows `n` executed iterations is `n` modulo
`2 ^ 32`; it is below 32 for `n < 32`, and nothing bounds the number of iterations. -/
theorem level_counts_iterations (keys : List Nat) (n : Nat) (st : BuildState)
    (h : afterLevels n (initState keys) = some st) :
    st.level = n % U32 ∧ (n < 32 → st.level < 32) := by
  have gen : ∀ (n : Nat) (s0 s1 : BuildState), s0.level < U32 → afterLevels n s0 = some s1 →
      s1.level = (s0.level + n) % U32 := by
    intro n
    induction n with
    | zero =>
      intro s0 s1 hl h
      simp only [afterLevels, Option.some.injEq] at h
      subst h
      rw [Nat.add_zero, Nat.mod_eq_of_lt hl]
    | succ n ih =>
      intro s0 s1 hl h
      unfold afterLevels at h
      split at h
      · cases h
      · split at h
        · cases h
        · rename_i st1 hs
          have h1 := (levelStep_level hs).1
          rw [ih _ _ (by rw [h1]; exact Nat.mod_lt _ (by decide)) h, h1]
          unfold U32
          omega
  have hl := gen n (initState keys) st (by show 0 < U32; decide) h
  have h0 : (initState keys).level = 0 := rfl
  rw [h0, Nat.zero_add] at hl
  refine ⟨hl, ?_⟩
  intro hn
  rw [hl]
  unfold U32
  omega

/-- Witness of `level_counts_iterations`. -/
theorem level_counts_iterations_witness :
    afterLevels 2 (initState [5, 5])
      = some { keys := [5, 5], size := 64, a := [0], collide := [0], level := 2,
               bits := [[0], [0]] } ∧
    (2 = 2 % U32 ∧ (2 < 32 → 2 < 32)) :=
  ⟨by decide, level_counts_iterations [5, 5] 2
    { keys := [5, 5], size := 64, a := [0], collide := [0], level := 2, bits := [[0], [0]] }
    (by decide)⟩

/-! ## One level: the two passes -/

theorem occ_append_singleton (P : List Nat) (k level size j : Nat) :
    occ (P ++ [k]) level size j = occ P level size j + (if bucket k level size = j then 1 else 0) := by
  unfold occ
  rw [List.countP_append]
  by_cases h : bucket k level size = j <;> simp [h]

theorem pass1Step_inv {level size : Nat} {P : List Nat} {a c a1 c1 : bitvec} {k : Nat}
    (h : pass1Step level size (a, c) k = some (a1, c1))
    (ha : ∀ j, testAt a j = decide (1 ≤ occ P level size j))
    (hc : ∀ j, testAt c j = decide (2 ≤ occ P level size j)) :
    (∀ j, testAt a1 j = decide (1 ≤ occ (P ++ [k]) level size j)) ∧
    (∀ j, testAt c1 j = decide (2 ≤ occ (P ++ [k]) level size j)) ∧
    a1.length = a.length ∧ c1.length = c.length ∧ size ≠ 0 := by
  unfold pass1Step at h
  by_cases hs : size = 0
  · simp [keyIdx, hs] at h
  rw [keyIdx_eq k level size hs] at h
  simp only at h
  cases hcb : bit c (bucket k level size) with
  | none => simp [hcb] at h
  | some cb =>
    have hcr := bit_isSome hcb
    rw [bit_eq_testAt hcr] at hcb
    simp only [Option.some.injEq] at hcb
    rw [bit_eq_testAt hcr] at h
    simp only at h
    by_cases hct : testAt c (bucket k level size) = true
    · simp [hct] at h
      obtain ⟨rfl, rfl⟩ := h
      have h2 := hc (bucket k level size)
      rw [hct] at h2
      have h2' : 2 ≤ occ P level size (bucket k level size) := by simpa using h2.symm
      refine ⟨?_, ?_, rfl, rfl, hs⟩
      · intro j
        rw [ha j, occ_append_singleton]
        by_cases hj : bucket k level size = j
        · subst hj
          simp
          omega
        · simp [hj]
      · intro j
        rw [hc j, occ_append_singleton]
        by_cases hj : bucket k level size = j
        · subst hj
          simp
          omega
        · simp [hj]
    · have hcf : testAt c (bucket k level size) = false := by simpa using hct
      have h2 := hc (bucket k level size)
      rw [hcf] at h2
      have h2' : ¬ 2 ≤ occ P level size (bucket k level size) := by simpa using h2.symm
      simp [hcf] at h
      cases hab : bit a (bucket k level size) with
      | none => simp [hab] at h
      | some ab =>
        have har := bit_isSome hab
        rw [bit_eq_testAt har] at h
        simp only at h
        by_cases hat : testAt a (bucket k level size) = true
        · simp [hat] at h
          cases hsb : setBit c (bucket k level size) with
          | none => simp [hsb] at h
          | some c2 =>
            simp [hsb] at h
            obtain ⟨rfl, rfl⟩ := h
            have h1 := ha (bucket k level size)
            rw [hat] at h1
            have h1' : 1 ≤ occ P level size (bucket k level size) := by simpa using h1.symm
            refine ⟨?_, ?_, rfl, length_setBit hsb, hs⟩
            · intro j
              rw [ha j, occ_append_singleton]
              by_cases hj : bucket k level size = j
              · subst hj
                simp
                omega
              · simp [hj]
            · intro j
              rw [testAt_setBit hsb, hc j, occ_append_singleton]
              by_cases hj : bucket k level size = j
              · subst hj
                simp
                omega
              · have hj2 : j ≠ bucket k level size := fun e => hj e.symm
                simp [hj, hj2]
        · have haf : testAt a (bucket k level size) = false := by simpa using hat
          have h1 := ha (bucket k level size)
          rw [haf] at h1
          have h1' : ¬ 1 ≤ occ P level size (bucket k level size) := by simpa using h1.symm
          simp [haf] at h
          cases hsb : setBit a (bucket k level size) with
          | none => simp [hsb] at h
          | some a2 =>
            simp [hsb] at h
            obtain ⟨rfl, rfl⟩ := h
            refine ⟨?_, ?_, length_setBit hsb, rfl, hs⟩
            · intro j
              rw [testAt_setBit hsb, ha j, occ_append_singleton]
              by_cases hj : bucket k level size = j
              · subst hj
                simp
              · have hj2 : j ≠ bucket k level size := fun e => hj e.symm
                simp [hj, hj2]
            · intro j
              rw [hc j, occ_append_singleton]
              by_cases hj : bucket k level size = j
              · subst hj
                simp
                omega
              · simp [hj]

theorem pass1_inv {level size : Nat} (R : List Nat) :
    ∀ {P : List Nat} {a c a1 c1 : bitvec},
    (R.foldlM (pass1Step level size) (a, c) = some (a1, c1)) →
    (∀ j, testAt a j = decide (1 ≤ occ P level size j)) →
    (∀ j, testAt c j = decide (2 ≤ occ P level size j)) →
    (∀ j, testAt a1 j = decide (1 ≤ occ (P ++ R) level size j)) ∧
    (∀ j, testAt c1 j = decide (2 ≤ occ (P ++ R) level size j)) ∧
    a1.length = a.length ∧ c1.length = c.length ∧ (R ≠ [] → size ≠ 0) := by
  induction R with
  | nil =>
    intro P a c a1 c1 h ha hc
    simp only [List.foldlM_nil, pure, Option.some.injEq, Prod.mk.injEq] at h
    obtain ⟨rfl, rfl⟩ := h
    rw [List.append_nil]
    exact ⟨ha, hc, rfl, rfl, fun h => absurd rfl h⟩
  | cons k ks ih =>
    intro P a c a1 c1 h ha hc
    rw [foldlM_cons_option] at h
    cases hstep : pass1Step level size (a, c) k with
    | none => simp [hstep] at h
    | some st =>
      obtain ⟨a2, c2⟩ := st
      rw [hstep] at h
      simp only [Option.some_bind] at h
      obtain ⟨ha2, hc2, hla, hlc, hs⟩ := pass1Step_inv hstep ha hc
      obtain ⟨ha3, hc3, hla3, hlc3, _⟩ := ih h ha2 hc2
      have e : P ++ [k] ++ ks = P ++ k :: ks := by simp
      rw [e] at ha3 hc3
      exact ⟨ha3, hc3, hla3.trans hla, hlc3.trans hlc, fun _ => hs⟩

theorem occ_nil (level size j : Nat) : occ [] level size j = 0 := rfl

theorem pass1_spec {level size : Nat} {keys : List Nat} {a c a1 c1 : bitvec}
    (h : pass1 level size keys a c = some (a1, c1))
    (ha : ∀ j, testAt a j = false) (hc : ∀ j, testAt c j = false) :
    (∀ j, testAt a1 j = decide (1 ≤ occ keys level size j)) ∧
    (∀ j, testAt c1 j = decide (2 ≤ occ keys level size j)) ∧
    a1.length = a.length ∧ c1.length = c.length ∧ (keys ≠ [] → size ≠ 0) := by
  have := pass1_inv (P := []) keys h (by intro j; simp [ha j, occ_nil])
    (by intro j; simp [hc j, occ_nil])
  simpa using this

theorem pass2Step_inv {level size : Nat} {c : bitvec} {r r1 : List Nat} {b b1 : bitvec} {k : Nat}
    (h : pass2Step level size c (r, b) k = some (r1, b1)) :
    size ≠ 0 ∧ b1.length = b.length ∧
    r1 = r ++ (if testAt c (bucket k level size) = true then [k] else []) ∧
    ∀ j, testAt b1 j = (testAt b j || (decide (bucket k level size = j) && !testAt c j)) := by
  unfold pass2Step at h
  by_cases hs : size = 0
  · simp [keyIdx, hs] at h
  rw [keyIdx_eq k level size hs] at h
  simp only at h
  cases hcb : bit c (bucket k level size) with
  | none => simp [hcb] at h
  | some cb =>
    have hcr := bit_isSome hcb
    rw [bit_eq_testAt hcr] at h
    simp only at h
    by_cases hct : testAt c (bucket k level size) = true
    · simp [hct] at h
      obtain ⟨rfl, rfl⟩ := h
      refine ⟨hs, rfl, by simp [hct], ?_⟩
      intro j
      by_cases hj : bucket k level size = j
      · subst hj
        simp [hct]
      · simp [hj]
    · have hcf : testAt c (bucket k level size) = false := by simpa using hct
      simp [hcf] at h
      cases hsb : setBit b (bucket k level size) with
      | none => simp [hsb] at h
      | some b2 =>
        simp [hsb] at h
        obtain ⟨rfl, rfl⟩ := h
        refine ⟨hs, length_setBit hsb, by simp [hcf], ?_⟩
        intro j
        rw [testAt_setBit hsb]
        by_cases hj : bucket k level size = j
        · subst hj
          simp [hcf]
        · have hj2 : j ≠ bucket k level size := fun e => hj e.symm
          simp [hj, hj2]

theorem pass2_inv {level size : Nat} {c : bitvec} (R : List Nat) :
    ∀ {r r1 : List Nat} {b b1 : bitvec},
    (R.foldlM (pass2Step level size c) (r, b) = some (r1, b1)) →
    b1.length = b.length ∧ (R ≠ [] → size ≠ 0) ∧
    r1 = r ++ R.filter (fun k => testAt c (bucket k level size)) ∧
    ∀ j, testAt b1 j
      = (testAt b j || R.any (fun k => decide (bucket k level size = j) && !testAt c j)) := by
  induction R with
  | nil =>
    intro r r1 b b1 h
    simp only [List.foldlM_nil, pure, Option.some.injEq, Prod.mk.injEq] at h
    obtain ⟨rfl, rfl⟩ := h
    refine ⟨rfl, fun h => absurd rfl h, by simp, by simp⟩
  | cons k ks ih =>
    intro r r1 b b1 h
    rw [foldlM_cons_option] at h
    cases hstep : pass2Step level size c (r, b) k with
    | none => simp [hstep] at h
    | some st =>
      obtain ⟨r2, b2⟩ := st
      rw [hstep] at h
      simp only [Option.some_bind] at h
      obtain ⟨hs, hl, hr, hb⟩ := pass2Step_inv hstep
      obtain ⟨hl3, _, hr3, hb3⟩ := ih h
      refine ⟨hl3.trans hl, fun _ => hs, ?_, ?_⟩
      · rw [hr3, hr]
        by_cases hct : testAt c (bucket k level size) = true
        · simp [hct, List.filter_cons]
        · simp [hct, List.filter_cons]
      · intro j
        rw [hb3 j, hb j]
        simp [List.any_cons, Bool.or_assoc]

theorem any_and_const {α : Type} (l : List α) (p : α → Bool) (q : Bool) :
    l.any (fun k => p k && q) = (l.any p && q) := by
  cases q <;> simp

theorem any_bucket_iff (keys : List Nat) (level size j : Nat) :
    keys.any (fun k => decide (bucket k level size = j)) = decide (1 ≤ occ keys level size j) := by
  unfold occ
  rw [Bool.eq_iff_iff]
  simp only [List.any_eq_true, decide_eq_true_eq]
  rw [Nat.succ_le_iff, List.countP_pos_iff]
  simp

/-- One level with fresh `a` and `collide`: what `levelStep` leaves. -/
theorem levelStep_spec {st st1 : BuildState} (h : levelStep st = some st1)
    (ha : ∀ j, testAt st.a j = false) (hc : ∀ j, testAt st.collide j = false) :
    st1.keys = deferred st.keys st.level st.size ∧
    st1.size = tableSize st1.keys.length ∧
    st1.level = (st.level + 1) % U32 ∧
    (∀ j, testAt st1.a j = false) ∧ (∀ j, testAt st1.collide j = false) ∧
    (st.keys ≠ [] → st.size ≠ 0) ∧
    ∃ bv, st1.bits = st.bits ++ [bv] ∧ bv.length = (newBitvec st.size).length ∧
      ∀ j, testAt bv j = decide (occ st.keys st.level st.size j = 1) := by
  unfold levelStep at h
  cases h1 : pass1 st.level st.size st.keys st.a st.collide with
  | none => simp [h1] at h
  | some ac =>
    obtain ⟨a1, c1⟩ := ac
    rw [h1] at h
    simp only at h
    cases h2 : pass2 st.level st.size c1 st.keys (newBitvec st.size) with
    | none => simp [h2] at h
    | some rb =>
      obtain ⟨redo, bv⟩ := rb
      rw [h2] at h
      simp only [Option.some.injEq] at h
      subst h
      obtain ⟨_, hc1, _, _, hs⟩ := pass1_spec h1 ha hc
      obtain ⟨hl, _, hr, hb⟩ := pass2_inv st.keys h2
      refine ⟨?_, rfl, rfl, fun j => testAt_newBitvec _ j, fun j => testAt_newBitvec _ j, hs,
        bv, rfl, hl, ?_⟩
      · simp only [List.nil_append] at hr
        rw [hr]
        unfold deferred
        apply List.filter_congr
        intro k _
        rw [hc1]
      · intro j
        rw [hb j, testAt_newBitvec, Bool.false_or, hc1 j]
        rw [any_and_const, any_bucket_iff]
        rw [Bool.eq_iff_iff]
        simp only [Bool.and_eq_true, Bool.not_eq_true', decide_eq_true_eq, decide_eq_false_iff_not]
        omega

/-! ## One level: success with adequately sized vectors, and the shared buffer -/

theorem in_range_of_lt {b : bitvec} {n size : Nat} (h : n < size) (hb : size ≤ 64 * b.length) :
    n / 64 < b.length := by
  omega

theorem pass1Step_total (level size : Nat) (a c : bitvec) (k : Nat) (hs : size ≠ 0)
    (ha : size ≤ 64 * a.length) (hc : size ≤ 64 * c.length) :
    ∃ a1 c1, pass1Step level size (a, c) k = some (a1, c1) ∧ a1.length = a.length ∧
      c1.length = c.length := by
  have hlt := bucket_lt k level size hs
  have hra := in_range_of_lt hlt ha
  have hrc := in_range_of_lt hlt hc
  unfold pass1Step
  rw [keyIdx_eq k level size hs]
  simp only
  rw [bit_eq_testAt hrc, bit_eq_testAt hra, setBit_eq hra, setBit_eq hrc]
  simp only
  split
  · exact ⟨_, _, rfl, rfl, rfl⟩
  · split
    · exact ⟨_, _, rfl, rfl, by simp⟩
    · exact ⟨_, _, rfl, by simp, rfl⟩

theorem pass1_total (level size : Nat) (keys : List Nat) (hs : size ≠ 0) :
    ∀ (a c : bitvec), size ≤ 64 * a.length → size ≤ 64 * c.length →
    ∃ a1 c1, pass1 level size keys a c = some (a1, c1) ∧ a1.length = a.length ∧
      c1.length = c.length := by
  unfold pass1
  induction keys with
  | nil =>
    intro a c _ _
    exact ⟨a, c, rfl, rfl, rfl⟩
  | cons k ks ih =>
    intro a c ha hc
    obtain ⟨a1, c1, h1, hla, hlc⟩ := pass1Step_total level size a c k hs ha hc
    rw [foldlM_cons_option, h1]
    simp only [Option.some_bind]
    obtain ⟨a2, c2, h2, hla2, hlc2⟩ := ih a1 c1 (by rw [hla]; exact ha) (by rw [hlc]; exact hc)
    exact ⟨a2, c2, h2, hla2.trans hla, hlc2.trans hlc⟩

theorem pass2Step_total (level size : Nat) (c : bitvec) (r : List Nat) (b : bitvec) (k : Nat)
    (hs : size ≠ 0) (hc : size ≤ 64 * c.length) (hb : size ≤ 64 * b.length) :
    ∃ r1 b1, pass2Step level size c (r, b) k = some (r1, b1) ∧ b1.length = b.length := by
  have hlt := bucket_lt k level size hs
  have hrb := in_range_of_lt hlt hb
  have hrc := in_range_of_lt hlt hc
  unfold pass2Step
  rw [keyIdx_eq k level size hs]
  simp only
  rw [bit_eq_testAt hrc, setBit_eq hrb]
  simp only
  split
  · exact ⟨_, _, rfl, rfl⟩
  · exact ⟨_, _, rfl, by simp⟩

theorem pass2_total (level size : Nat) (c : bitvec) (keys : List Nat) (hs : size ≠ 0)
    (hc : size ≤ 64 * c.length) :
    ∀ (r : List Nat) (b : bitvec), size ≤ 64 * b.length →
    ∃ r1 b1, keys.foldlM (pass2Step level size c) (r, b) = some (r1, b1) := by
  induction keys with
  | nil =>
    intro r b _
    exact ⟨r, b, rfl⟩
  | cons k ks ih =>
    intro r b hb
    obtain ⟨r1, b1, h1, hlb⟩ := pass2Step_total level size c r b k hs hc hb
    rw [foldlM_cons_option, h1]
    simp only [Option.some_bind]
    exact ih r1 b1 (by rw [hlb]; exact hb)

/-- The second loop on the shared buffer computes what the loop on a list of its own
computes: the deferred keys are the first `c` cells of the buffer. -/
theorem pass2Shared_eq {level size : Nat} {c : bitvec} (buf : List Nat) (bv0 : bitvec) :
    ∀ (n : Nat) (redo : List Nat) (bv : bitvec), n ≤ buf.length →
    pass2 level size c (buf.take n) bv0 = some (redo, bv) →
    ∃ buf1, pass2Shared level size c buf n bv0 = some (buf1, redo.length, bv) ∧
      buf1.take redo.length = redo ∧ buf1.drop n = buf.drop n ∧ buf1.length = buf.length ∧
      redo.length ≤ n := by
  intro n
  induction n with
  | zero =>
    intro redo bv _ h
    simp only [pass2, List.take_zero, List.foldlM_nil, pure, Option.some.injEq,
      Prod.mk.injEq] at h
    obtain ⟨rfl, rfl⟩ := h
    exact ⟨buf, rfl, rfl, rfl, rfl, Nat.le_refl _⟩
  | succ n ih =>
    intro redo bv hn h
    have hlt : n < buf.length := hn
    have etake : buf.take (n + 1) = buf.take n ++ [buf[n]] := by
      rw [List.take_succ, List.getElem?_eq_getElem hlt]
      rfl
    unfold pass2 at h
    rw [etake, foldlM_append_option] at h
    cases hp : (buf.take n).foldlM (pass2Step level size c) ([], bv0) with
    | none => simp [hp] at h
    | some rb =>
      obtain ⟨r0, b0⟩ := rb
      rw [hp] at h
      simp only [Option.some_bind, foldlM_singleton_option] at h
      obtain ⟨buf0, hsh, htk, hdr, hlen, hle⟩ := ih r0 b0 (Nat.le_of_lt hlt) hp
      have hread : buf0[n]? = some buf[n] := by
        have h1 : buf0[n]? = (buf0.drop n)[0]? := by simp
        rw [h1, hdr]
        simp [List.getElem?_eq_getElem hlt]
      unfold pass2Shared at hsh ⊢
      rw [List.range_succ, foldlM_append_option, hsh]
      simp only [Option.some_bind, foldlM_singleton_option]
      unfold pass2SharedStep
      simp only [hread]
      unfold pass2Step at h
      cases hk : keyIdx buf[n] level size with
      | none => simp [hk] at h
      | some idx =>
        rw [hk] at h
        simp only at h ⊢
        cases hb : bit c idx with
        | none => simp [hb] at h
        | some cb =>
          rw [hb] at h
          simp only at h ⊢
          by_cases hcb : cb = 1
          · simp only [hcb, if_true, Option.some.injEq, Prod.mk.injEq] at h ⊢
            obtain ⟨rfl, rfl⟩ := h
            refine ⟨buf0.set r0.length buf[n], ?_, ?_, ?_, ?_, ?_⟩
            · simp
            · rw [List.length_append, List.length_singleton, List.take_succ]
              have hr0 : r0.length < buf0.length := by omega
              rw [List.getElem?_set_self hr0]
              simp only [Option.toList_some]
              congr 1
              rw [List.set_take, htk, List.set_eq_of_length_le (Nat.le_refl _)]
            · rw [List.drop_set_of_lt _ _ (by omega : r0.length < n + 1)]
              have e1 : buf0.drop (n + 1) = (buf0.drop n).drop 1 := by simp
              have e2 : buf.drop (n + 1) = (buf.drop n).drop 1 := by simp
              rw [e1, e2, hdr]
            · simp [hlen]
            · simp
              omega
          · simp only [hcb, if_false] at h ⊢
            cases hsb : setBit b0 idx with
            | none => simp [hsb] at h
            | some b2 =>
              rw [hsb] at h
              simp only [Option.some.injEq, Prod.mk.injEq] at h ⊢
              obtain ⟨rfl, rfl⟩ := h
              refine ⟨buf0, by simp, htk, ?_, hlen, by omega⟩
              have e1 : buf0.drop (n + 1) = (buf0.drop n).drop 1 := by simp
              have e2 : buf.drop (n + 1) = (buf.drop n).drop 1 := by simp
              rw [e1, e2, hdr]

/-! ## Ranks: counting bit by bit and word by word -/

theorem rankBrute_succ (b : bitvec) (n : Nat) :
    rankBrute b (n + 1) = rankBrute b n + (if testAt b n = true then 1 else 0) := by
  unfold rankBrute
  rw [List.range_succ, List.filter_append, List.length_append]
  by_cases h : testAt b n = true <;> simp [List.filter_cons, h]

theorem bitsBelow_succ (w n : Nat) :
    bitsBelow w (n + 1) = bitsBelow w n + (if w.testBit n = true then 1 else 0) := by
  unfold bitsBelow
  rw [List.range_succ, List.filter_append, List.length_append]
  by_cases h : w.testBit n = true <;> simp [List.filter_cons, h]

theorem rankBrute_mono (b : bitvec) {m n : Nat} (h : m ≤ n) : rankBrute b m ≤ rankBrute b n := by
  induction n with
  | zero =>
    have : m = 0 := by omega
    rw [this]
  | succ n ih =>
    by_cases hm : m = n + 1
    · rw [hm]
    · have := ih (by omega)
      rw [rankBrute_succ]
      omega

theorem rankBrute_word (b : bitvec) (t k : Nat) (hk : k ≤ 64) :
    rankBrute b (64 * t + k) = rankBrute b (64 * t) + bitsBelow (b.getD t 0) k := by
  induction k with
  | zero => simp [bitsBelow]
  | succ k ih =>
    rw [← Nat.add_assoc, rankBrute_succ, bitsBelow_succ, ih (by omega)]
    have e : testAt b (64 * t + k) = (b.getD t 0).testBit k := by
      unfold testAt
      have e1 : (64 * t + k) / 64 = t := by omega
      have e2 : (64 * t + k) % 64 = k := by omega
      rw [e1, e2]
    rw [e]
    omega

theorem rankBrute_next_word (b : bitvec) (t : Nat) :
    rankBrute b (64 * (t + 1)) = rankBrute b (64 * t) + onesCount64 (b.getD t 0) := by
  have := rankBrute_word b t 64 (Nat.le_refl _)
  rw [Nat.mul_add, Nat.mul_one]
  exact this

theorem popWords_append (l1 l2 : List Nat) : popWords (l1 ++ l2) = popWords l1 + popWords l2 := by
  simp [popWords]

theorem popWords_take (b : bitvec) (t : Nat) : popWords (b.take t) = rankBrute b (64 * t) := by
  induction t with
  | zero => simp [popWords, rankBrute]
  | succ t ih =>
    rw [rankBrute_next_word, List.take_succ, popWords_append, ih]
    congr 1
    rw [List.getD_eq_getElem?_getD]
    cases b[t]? with
    | none => simp [popWords, onesCount64, bitsBelow]
    | some w => simp [popWords]

theorem popWords_eq_setBits (b : bitvec) : popWords b = setBits b := by
  unfold setBits
  rw [← popWords_take, List.take_length]

theorem rankBrute_lt_setBits (b : bitvec) (n : Nat) (hn : n < 64 * b.length)
    (h : testAt b n = true) : rankBrute b n + 1 ≤ setBits b := by
  unfold setBits
  have h1 := rankBrute_succ b n
  rw [if_pos h] at h1
  rw [← h1]
  exact rankBrute_mono b hn

/-! ## configRanks -/

theorem rankWords_inv (bv : bitvec) (X : Nat) :
    ∀ (vs pre : List Nat) (r : List Nat), bv = pre ++ vs →
      r.length = (pre.length + 7) / 8 →
      (∀ t, 8 * t < pre.length → r[t]? = some ((X + popWords (bv.take (8 * t))) % U64)) →
      (rankWords pre.length vs (r, (X + popWords pre) % U64)).1.length = (bv.length + 7) / 8 ∧
      (∀ t, 8 * t < bv.length →
        (rankWords pre.length vs (r, (X + popWords pre) % U64)).1[t]?
          = some ((X + popWords (bv.take (8 * t))) % U64)) ∧
      (rankWords pre.length vs (r, (X + popWords pre) % U64)).2 = (X + popWords bv) % U64 := by
  intro vs
  induction vs with
  | nil =>
    intro pre r hbv hl hr
    simp only [List.append_nil] at hbv
    subst hbv
    exact ⟨hl, hr, rfl⟩
  | cons v vs ih =>
    intro pre r hbv hl hr
    have hbv2 : bv = (pre ++ [v]) ++ vs := by simp [hbv]
    have hpop : ((X + popWords pre) % U64 + onesCount64 v) % U64
        = (X + popWords (pre ++ [v])) % U64 := by
      rw [popWords_append, Nat.mod_add_mod]
      simp [popWords, Nat.add_assoc]
    have hlen : (pre ++ [v]).length = pre.length + 1 := by simp
    have htake : bv.take pre.length = pre := by
      rw [hbv]
      simp
    unfold rankWords
    simp only
    rw [hpop, ← hlen]
    apply ih (pre ++ [v]) _ hbv2
    · rw [hlen]
      split
      · rw [List.length_append, hl]
        simp only [List.length_singleton]
        omega
      · rw [hl]
        omega
    · intro t ht
      rw [hlen] at ht
      split
      · rename_i h8
        by_cases hlt : 8 * t < pre.length
        · rw [List.getElem?_append_left (by rw [hl]; omega)]
          exact hr t hlt
        · have e : 8 * t = pre.length := by omega
          have et : t = r.length := by rw [hl]; omega
          rw [et, List.getElem?_concat_length]
          rw [← et, e, htake]
      · rename_i h8
        exact hr t (by omega)

theorem rankWords_spec (bv : bitvec) (X : Nat) :
    (rankWords 0 bv ([], X % U64)).1.length = (bv.length + 7) / 8 ∧
    (∀ t, 8 * t < bv.length →
      (rankWords 0 bv ([], X % U64)).1[t]? = some ((X + popWords (bv.take (8 * t))) % U64)) ∧
    (rankWords 0 bv ([], X % U64)).2 = (X + setBits bv) % U64 := by
  have h := rankWords_inv bv X bv [] [] rfl rfl (by intro t ht; simp at ht)
  simp only [List.length_nil, popWords, List.map_nil, List.sum_nil, Nat.add_zero] at h
  rw [← popWords_eq_setBits]
  exact h

/-- The rank table of a level is that of its words, started at the number of set bits of
the levels before it. -/
theorem rankLevels_spec :
    ∀ (bits : List bitvec) (X : Nat),
      (rankLevels bits (X % U64)).length = bits.length ∧
      ∀ (pre : List bitvec) (bv : bitvec) (post : List bitvec), bits = pre ++ bv :: post →
        (rankLevels bits (X % U64))[pre.length]?
          = some (rankWords 0 bv ([], (X + (pre.map setBits).sum) % U64)).1 := by
  intro bits
  induction bits with
  | nil =>
    intro X
    refine ⟨rfl, ?_⟩
    intro pre bv post h
    simp at h
  | cons b bs ih =>
    intro X
    have hsp := (rankWords_spec b X).2.2
    unfold rankLevels
    simp only
    rw [hsp]
    refine ⟨by simp [(ih (X + setBits b)).1], ?_⟩
    intro pre bv post h
    cases pre with
    | nil =>
      simp only [List.nil_append, List.cons.injEq] at h
      obtain ⟨rfl, rfl⟩ := h
      simp
    | cons p ps =>
      simp only [List.cons_append, List.cons.injEq] at h
      obtain ⟨rfl, h2⟩ := h
      have := (ih (X + setBits b)).2 ps bv post h2
      simp only [List.length_cons, List.getElem?_cons_succ, List.map_cons, List.sum_cons]
      rw [this, Nat.add_assoc]

/-! ## query -/

theorem rankSpan_fold (bv : bitvec) :
    ∀ (cnt start X : Nat), start + cnt ≤ bv.length →
    (List.range' start cnt).foldlM (rankSpanStep bv) (X % U64)
      = some ((X + popWords ((bv.take (start + cnt)).drop start)) % U64) := by
  intro cnt
  induction cnt with
  | zero =>
    intro start X _
    have e : (bv.take (start + 0)).drop start = [] := by
      apply List.drop_eq_nil_of_le
      rw [Nat.add_zero]
      exact List.length_take_le _ _
    rw [e]
    simp [popWords]
  | succ n ih =>
    intro start X h
    have hlt : start < bv.length := by omega
    rw [List.range'_succ, foldlM_cons_option]
    unfold rankSpanStep
    rw [List.getElem?_eq_getElem hlt]
    simp only [Option.some_bind, Nat.mod_add_mod]
    change (List.range' (start + 1) n).foldlM (rankSpanStep bv)
      ((X + onesCount64 bv[start]) % U64) = _
    rw [ih (start + 1) (X + onesCount64 bv[start]) (by omega)]
    have e1 : start + 1 + n = start + (n + 1) := by omega
    have hlt2 : start < (bv.take (start + (n + 1))).length := by
      rw [List.length_take]
      omega
    rw [e1, List.drop_eq_getElem_cons hlt2]
    simp [popWords, Nat.add_assoc]

theorem rankSpan_spec (bv : bitvec) (idx X : Nat) (h : idx / 64 < bv.length) :
    rankSpan bv idx ((X + popWords (bv.take (8 * (idx / 512)))) % U64)
      = some ((X + rankBrute bv (64 * (idx / 64))) % U64) := by
  unfold rankSpan
  simp only
  rw [andNot_7]
  have es : idx / 64 / 8 * 8 = 8 * (idx / 512) := by omega
  rw [es, rankSpan_fold bv _ _ _ (by omega)]
  have e2 : 8 * (idx / 512) + (idx / 64 - 8 * (idx / 512)) = idx / 64 := by omega
  rw [e2, ← popWords_take, Nat.add_assoc]
  congr 3
  rw [← popWords_append]
  congr 1
  have e3 : bv.take (8 * (idx / 512)) = (bv.take (idx / 64)).take (8 * (idx / 512)) := by
    rw [List.take_take]
    congr 1
    omega
  rw [e3, List.take_append_drop]

/-- On levels none of which is empty and whose bit counts fit a `uint32`, the loop of
`query` returns the specified result, reduced modulo `2 ^ 64`. -/
theorem queryFrom_spec (bits : List bitvec) (key : Nat)
    (hwf : ∀ bv ∈ bits, bv ≠ [] ∧ 64 * bv.length < U32) :
    ∀ (rest pre : List bitvec), bits = pre ++ rest →
    queryFrom (configRanks bits) (xorshift key % U32) ((xorshift key >>> 32) % U32) pre.length rest
      = some (querySpecFrom key pre.length (pre.map setBits).sum rest % U64) := by
  intro rest
  induction rest with
  | nil =>
    intro pre _
    rfl
  | cons bv rest ih =>
    intro pre hb
    have hmem : bv ∈ bits := by rw [hb]; simp
    obtain ⟨hne, h32⟩ := hwf bv hmem
    have hpos : 0 < bv.length := List.length_pos.mpr hne
    have hm : (bv.length * 64) % U32 = 64 * bv.length := by
      rw [Nat.mul_comm, Nat.mod_eq_of_lt h32]
    have hm0 : 64 * bv.length ≠ 0 := by omega
    unfold queryFrom querySpecFrom
    simp only
    rw [hm, if_neg hm0]
    have hidx : (xorshift key % U32 ^^^ rotl ((xorshift key >>> 32) % U32) (pre.length % U32))
        % (64 * bv.length) = levelIdx bv key pre.length := rfl
    rw [hidx]
    have hlt : levelIdx bv key pre.length < 64 * bv.length := bucket_lt _ _ _ hm0
    have hr : levelIdx bv key pre.length / 64 < bv.length := by omega
    rw [bit_eq_testAt hr]
    simp only
    by_cases hh : hit bv key pre.length = true
    · have ht : testAt bv (levelIdx bv key pre.length) = true := hh
      rw [if_pos hh, ht]
      simp only [Bool.toNat_true, one_ne_zero, if_false]
      have hrk := (rankLevels_spec bits 0).2 pre bv rest hb
      rw [Nat.zero_mod] at hrk
      unfold configRanks
      rw [hrk]
      simp only [Nat.zero_add]
      have hsamp := (rankWords_spec bv (pre.map setBits).sum).2.1
        (levelIdx bv key pre.length / 512) (by omega)
      rw [hsamp]
      simp only
      rw [rankSpan_spec bv _ _ hr, List.getElem?_eq_getElem hr]
      simp only
      rw [onesCount64_shl64 _ _ (Nat.mod_lt _ (by norm_num))]
      have hw := rankBrute_word bv (levelIdx bv key pre.length / 64)
        (levelIdx bv key pre.length % 64) (by omega)
      rw [Nat.div_add_mod] at hw
      have hg : bv.getD (levelIdx bv key pre.length / 64) 0
          = bv[levelIdx bv key pre.length / 64] := by
        simp [List.getD_eq_getElem?_getD, List.getElem?_eq_getElem hr]
      rw [hg] at hw
      rw [hw]
      congr 1
      unfold U64
      omega
    · have ht : testAt bv (levelIdx bv key pre.length) = false := by
        have : hit bv key pre.length = false := by simpa using hh
        exact this
      rw [if_neg hh, ht]
      simp only [Bool.toNat_false, if_true]
      have := ih (pre ++ [bv]) (by simp [hb])
      simp only [List.length_append, List.length_singleton, List.map_append, List.map_cons,
        List.map_nil, List.sum_append, List.sum_cons, List.sum_nil, Nat.add_zero] at this
      exact this

theorem query_eq_spec (bits : List bitvec) (key : Nat)
    (hwf : ∀ bv ∈ bits, bv ≠ [] ∧ 64 * bv.length < U32) :
    query { bits := bits, ranks := configRanks bits } key = some (querySpec bits key % U64) := by
  have := queryFrom_spec bits key hwf bits [] rfl
  simpa [query, querySpec] using this

/-! ## The level loop -/

theorem tableSize_facts (m : Nat) : tableSize m % 64 = 0 ∧ tableSize m ≤ 4294967232 := by
  unfold tableSize
  rw [andNot_63]
  have h : ((2 * m) % U32 + 63) % U32 < 4294967296 := Nat.mod_lt _ (by decide)
  omega

theorem length_newBitvec_tableSize (m : Nat) :
    64 * (newBitvec (tableSize m)).length = tableSize m := by
  obtain ⟨h1, h2⟩ := tableSize_facts m
  rw [length_newBitvec]
  unfold U32
  rw [Nat.mod_eq_of_lt (by omega)]
  omega

theorem buildLoop_levels :
    ∀ (fuel : Nat) (st : BuildState) (bits : List bitvec),
      buildLoop fuel st = .ok bits →
      (∀ j, testAt st.a j = false) → (∀ j, testAt st.collide j = false) →
      st.size = tableSize st.keys.length → st.level = st.bits.length % U32 →
      ∃ bvs, bits = st.bits ++ bvs ∧ Levels st.bits.length st.keys bvs := by
  intro fuel
  induction fuel with
  | zero =>
    intro st bits h _ _ _ _
    unfold buildLoop at h
    split at h
    · rename_i hk
      cases h
      have : st.keys = [] := List.length_eq_zero.mp hk
      rw [this]
      exact ⟨[], by simp, Levels.done _⟩
    · cases h
  | succ fuel ih =>
    intro st bits h ha hc hsz hlv
    unfold buildLoop at h
    split at h
    · rename_i hk
      cases h
      have : st.keys = [] := List.length_eq_zero.mp hk
      rw [this]
      exact ⟨[], by simp, Levels.done _⟩
    · rename_i hk
      have hne : st.keys ≠ [] := fun e => hk (by rw [e]; rfl)
      split at h
      · cases h
      · rename_i st1 hstep
        obtain ⟨hkeys, hsz1, hlv1, ha1, hc1, hs0, bv, hbits, hlen, hbit⟩ :=
          levelStep_spec hstep ha hc
        have hlv2 : st1.level = st1.bits.length % U32 := by
          rw [hlv1, hbits, hlv, List.length_append, List.length_singleton, Nat.mod_add_mod]
        obtain ⟨bvs, hb, hL⟩ := ih st1 bits h ha1 hc1 hsz1 hlv2
        refine ⟨bv :: bvs, by rw [hb, hbits]; simp, ?_⟩
        rw [hbits, List.length_append, List.length_singleton, hkeys, hlv, hsz] at hL
        rw [hsz] at hs0 hlen hbit
        rw [hlv] at hbit
        refine Levels.level _ _ _ _ hne (hs0 hne) ?_ ?_ hL
        · rw [hlen, length_newBitvec_tableSize]
        · exact hbit

theorem initState_fresh (keys : List Nat) :
    (∀ j, testAt (initState keys).a j = false) ∧ (∀ j, testAt (initState keys).collide j = false) ∧
    (initState keys).size = tableSize (initState keys).keys.length ∧
    (initState keys).level = (initState keys).bits.length % U32 ∧
    (initState keys).bits = [] ∧ (initState keys).keys = keys := by
  refine ⟨fun j => testAt_newBitvec _ j, fun j => testAt_newBitvec _ j, rfl, rfl, rfl, rfl⟩

theorem newHashFunc_levels {fuel : Nat} {keys : List Nat} {hf : hashFunc}
    (h : newHashFunc fuel keys = .ok hf) :
    Levels 0 keys hf.bits ∧ hf.ranks = configRanks hf.bits := by
  unfold newHashFunc at h
  split at h
  · rename_i bits hb
    cases h
    obtain ⟨ha, hc, hsz, hlv, hbits, hkeys⟩ := initState_fresh keys
    obtain ⟨bvs, hbv, hL⟩ := buildLoop_levels fuel _ bits hb ha hc hsz hlv
    rw [hbits] at hbv hL
    rw [hkeys] at hL
    simp only [List.nil_append] at hbv
    subst hbv
    exact ⟨hL, rfl⟩
  · cases h
  · cases h

/-! ## What the levels say about the keys -/

theorem Levels_wf {lvl : Nat} {keys : List Nat} {bvs : List bitvec} (h : Levels lvl keys bvs) :
    ∀ bv ∈ bvs, bv ≠ [] ∧ 64 * bv.length < U32 := by
  induction h with
  | done lvl => intro bv hbv; cases hbv
  | level lvl keys bv bvs hne hsz hlen hbit hrest ih =>
    intro b hb
    rcases List.mem_cons.mp hb with rfl | hb
    · have := (tableSize_facts keys.length).2
      refine ⟨?_, by rw [hlen]; unfold U32; omega⟩
      intro e
      rw [e] at hlen
      exact hsz hlen.symm
    · exact ih b hb

theorem occ_pos_of_mem {keys : List Nat} {k : Nat} (level size : Nat) (h : k ∈ keys) :
    1 ≤ occ keys level size (bucket k level size) := by
  unfold occ
  rw [Nat.succ_le_iff, List.countP_pos_iff]
  exact ⟨k, h, by simp⟩

theorem count_le_occ (keys : List Nat) (level size v : Nat) :
    keys.count v ≤ occ keys level size (bucket v level size) := by
  unfold occ List.count
  apply List.countP_mono_left
  intro k _ hk
  have : k = v := by simpa using hk
  simp [this]

theorem count_deferred (keys : List Nat) (level size v : Nat) (h : 2 ≤ keys.count v) :
    (deferred keys level size).count v = keys.count v := by
  unfold deferred
  rw [List.count_filter]
  have := count_le_occ keys level size v
  simp
  omega

theorem nodup_of_nodup_deferred (keys : List Nat) (level size : Nat)
    (h : (deferred keys level size).Nodup) : keys.Nodup := by
  rw [List.nodup_iff_count_le_one] at h ⊢
  intro v
  by_contra hc
  have h2 : 2 ≤ keys.count v := by omega
  have := h v
  rw [count_deferred keys level size v h2] at this
  omega

theorem Levels_nodup {lvl : Nat} {keys : List Nat} {bvs : List bitvec} (h : Levels lvl keys bvs) :
    keys.Nodup := by
  induction h with
  | done lvl => exact List.nodup_nil
  | level lvl keys bv bvs hne hsz hlen hbit hrest ih =>
    exact nodup_of_nodup_deferred keys _ _ ih

theorem occ_eq_zero_of_ge {keys : List Nat} {level size j : Nat} (hs : size ≠ 0) (hj : size ≤ j) :
    occ keys level size j = 0 := by
  unfold occ
  rw [List.countP_eq_zero]
  intro k _
  have := bucket_lt k level size hs
  simp
  omega

theorem count_unique_buckets (keys : List Nat) (level size j : Nat) :
    ((keys.filter (fun k => decide (occ keys level size (bucket k level size) = 1))).map
        (fun k => bucket k level size)).count j
      = if occ keys level size j = 1 then 1 else 0 := by
  unfold List.count
  rw [List.countP_map, List.countP_filter]
  have e : keys.countP (fun k => ((fun x => x == j) ∘ fun k => bucket k level size) k
        && decide (occ keys level size (bucket k level size) = 1))
      = keys.countP (fun k => decide (bucket k level size = j)
        && decide (occ keys level size j = 1)) := by
    apply List.countP_congr
    intro k _
    by_cases hk : bucket k level size = j
    · simp [hk]
    · simp [hk]
  rw [e]
  by_cases h1 : occ keys level size j = 1
  · simp only [h1, decide_True, Bool.and_true, if_true]
    exact h1
  · simp [h1]

theorem count_set_positions (keys : List Nat) (level size j : Nat) (hs : size ≠ 0) :
    ((List.range size).filter (fun j => decide (occ keys level size j = 1))).count j
      = if occ keys level size j = 1 then 1 else 0 := by
  by_cases h1 : occ keys level size j = 1
  · rw [if_pos h1, List.count_filter (by simpa using h1)]
    have hj : j < size := by
      by_contra hc
      rw [occ_eq_zero_of_ge hs (Nat.le_of_not_lt hc)] at h1
      cases h1
    exact List.count_eq_one_of_mem (List.nodup_range size) (List.mem_range.mpr hj)
  · rw [if_neg h1]
    apply List.count_eq_zero_of_not_mem
    intro hm
    have := (List.mem_filter.mp hm).2
    exact h1 (by simpa using this)

theorem setBits_level {keys : List Nat} {bv : bitvec} {level size : Nat} (hs : size ≠ 0)
    (hlen : 64 * bv.length = size)
    (hbit : ∀ j, testAt bv j = decide (occ keys level size j = 1)) :
    setBits bv + (deferred keys level size).length = keys.length := by
  have e1 : setBits bv
      = ((List.range size).filter (fun j => decide (occ keys level size j = 1))).length := by
    unfold setBits rankBrute
    rw [hlen]
    congr 1
    apply List.filter_congr
    intro j _
    exact hbit j
  have hperm : List.Perm
      ((keys.filter (fun k => decide (occ keys level size (bucket k level size) = 1))).map
        (fun k => bucket k level size))
      ((List.range size).filter (fun j => decide (occ keys level size j = 1))) := by
    rw [List.perm_iff_count]
    intro j
    rw [count_unique_buckets, count_set_positions keys level size j hs]
  have e2 := hperm.length_eq
  rw [List.length_map] at e2
  rw [e1, ← e2]
  have e3 : deferred keys level size
      = keys.filter (fun k => !decide (occ keys level size (bucket k level size) = 1)) := by
    unfold deferred
    apply List.filter_congr
    intro k hk
    have := occ_pos_of_mem level size hk
    rw [Bool.eq_iff_iff]
    simp only [decide_eq_true_eq, Bool.not_eq_true', decide_eq_false_iff_not]
    omega
  rw [e3, ← List.countP_eq_length_filter, ← List.countP_eq_length_filter]
  have := List.length_eq_countP_add_countP
    (fun k => decide (occ keys level size (bucket k level size) = 1)) keys
  rw [this]
  congr 1
  apply List.countP_congr
  intro k _
  simp

theorem Levels_setBits {lvl : Nat} {keys : List Nat} {bvs : List bitvec} (h : Levels lvl keys bvs) :
    (bvs.map setBits).sum = keys.length := by
  induction h with
  | done lvl => rfl
  | level lvl keys bv bvs hne hsz hlen hbit hrest ih =>
    rw [List.map_cons, List.sum_cons, ih]
    exact setBits_level hsz hlen hbit

/-! ## The specification of query on the keys of the construction -/

theorem two_le_length_of_mem_ne {l : List Nat} (k k1 : Nat) (hk : k ∈ l) (hk1 : k1 ∈ l)
    (hne : k ≠ k1) : 2 ≤ l.length := by
  match l, hk, hk1 with
  | [], hk, _ => cases hk
  | [x], hk, hk1 =>
    have e1 : k = x := by simpa using hk
    have e2 : k1 = x := by simpa using hk1
    exact absurd (e1.trans e2.symm) hne
  | _ :: _ :: _, _, _ => simp

theorem occ_two_of_shared {keys : List Nat} {level size k k1 : Nat} (hk : k ∈ keys)
    (hk1 : k1 ∈ keys) (hne : k ≠ k1) (hb : bucket k level size = bucket k1 level size) :
    2 ≤ occ keys level size (bucket k level size) := by
  unfold occ
  rw [List.countP_eq_length_filter]
  apply two_le_length_of_mem_ne k k1 _ _ hne
  · exact List.mem_filter.mpr ⟨hk, by simp⟩
  · exact List.mem_filter.mpr ⟨hk1, by simp [hb]⟩

theorem rankBrute_lt_of_set {b : bitvec} {m n : Nat} (h : m < n) (hm : testAt b m = true) :
    rankBrute b m < rankBrute b n := by
  have h1 := rankBrute_succ b m
  rw [if_pos hm] at h1
  have h2 := rankBrute_mono b (show m + 1 ≤ n from h)
  omega

theorem rankBrute_inj_of_set {b : bitvec} {m n : Nat} (hm : testAt b m = true)
    (hn : testAt b n = true) (h : rankBrute b m = rankBrute b n) : m = n := by
  rcases Nat.lt_trichotomy m n with hlt | heq | hgt
  · have := rankBrute_lt_of_set hlt hm
    omega
  · exact heq
  · have := rankBrute_lt_of_set hgt hn
    omega

theorem hit_level {keys : List Nat} {bv : bitvec} {lvl : Nat}
    (hlen : 64 * bv.length = tableSize keys.length)
    (hbit : ∀ j, testAt bv j = decide (occ keys (lvl % U32) (tableSize keys.length) j = 1))
    (k : Nat) :
    levelIdx bv k lvl = bucket k (lvl % U32) (tableSize keys.length) ∧
    hit bv k lvl = decide (occ keys (lvl % U32) (tableSize keys.length)
      (bucket k (lvl % U32) (tableSize keys.length)) = 1) := by
  unfold hit levelIdx
  rw [hlen]
  exact ⟨rfl, hbit _⟩

theorem mem_deferred {keys : List Nat} {level size k : Nat} (hk : k ∈ keys)
    (h : ¬ occ keys level size (bucket k level size) = 1) : k ∈ deferred keys level size := by
  unfold deferred
  refine List.mem_filter.mpr ⟨hk, ?_⟩
  have := occ_pos_of_mem level size hk
  simp
  omega

theorem mem_of_mem_deferred {keys : List Nat} {level size k : Nat}
    (h : k ∈ deferred keys level size) : k ∈ keys :=
  (List.mem_filter.mp h).1

theorem Levels_range {lvl : Nat} {keys : List Nat} {bvs : List bitvec} (h : Levels lvl keys bvs) :
    ∀ prior k, k ∈ keys → prior < querySpecFrom k lvl prior bvs ∧
      querySpecFrom k lvl prior bvs ≤ prior + (bvs.map setBits).sum := by
  induction h with
  | done lvl => intro prior k hk; cases hk
  | level lvl keys bv bvs hne hsz hlen hbit hrest ih =>
    intro prior k hk
    obtain ⟨hidx, hhit⟩ := hit_level hlen hbit k
    unfold querySpecFrom
    rw [List.map_cons, List.sum_cons]
    by_cases h1 : occ keys (lvl % U32) (tableSize keys.length)
        (bucket k (lvl % U32) (tableSize keys.length)) = 1
    · have hh : hit bv k lvl = true := by rw [hhit]; simpa using h1
      rw [if_pos hh]
      have hlt : levelIdx bv k lvl < 64 * bv.length := by
        rw [hidx, hlen]
        exact bucket_lt _ _ _ hsz
      have := rankBrute_lt_setBits bv _ hlt hh
      omega
    · have hh : ¬ hit bv k lvl = true := by rw [hhit]; simpa using h1
      rw [if_neg hh]
      have := ih (prior + setBits bv) k (mem_deferred hk h1)
      omega

theorem Levels_inj {lvl : Nat} {keys : List Nat} {bvs : List bitvec} (h : Levels lvl keys bvs) :
    ∀ prior k k1, k ∈ keys → k1 ∈ keys →
      querySpecFrom k lvl prior bvs = querySpecFrom k1 lvl prior bvs → k = k1 := by
  induction h with
  | done lvl => intro prior k k1 hk; cases hk
  | level lvl keys bv bvs hne hsz hlen hbit hrest ih =>
    intro prior k k1 hk hk1 heq
    obtain ⟨hidx, hhit⟩ := hit_level hlen hbit k
    obtain ⟨hidx1, hhit1⟩ := hit_level hlen hbit k1
    have hrange := Levels_range hrest (prior + setBits bv)
    unfold querySpecFrom at heq
    by_cases h1 : occ keys (lvl % U32) (tableSize keys.length)
        (bucket k (lvl % U32) (tableSize keys.length)) = 1
    · have hh : hit bv k lvl = true := by rw [hhit]; simpa using h1
      have hlt : levelIdx bv k lvl < 64 * bv.length := by
        rw [hidx, hlen]
        exact bucket_lt _ _ _ hsz
      have hb := rankBrute_lt_setBits bv _ hlt hh
      rw [if_pos hh] at heq
      by_cases h2 : occ keys (lvl % U32) (tableSize keys.length)
          (bucket k1 (lvl % U32) (tableSize keys.length)) = 1
      · have hh1 : hit bv k1 lvl = true := by rw [hhit1]; simpa using h2
        rw [if_pos hh1] at heq
        have hr : rankBrute bv (levelIdx bv k lvl) = rankBrute bv (levelIdx bv k1 lvl) := by
          omega
        have hi := rankBrute_inj_of_set hh hh1 hr
        rw [hidx, hidx1] at hi
        by_contra hne2
        have := occ_two_of_shared hk hk1 hne2 hi
        omega
      · have hh1 : ¬ hit bv k1 lvl = true := by rw [hhit1]; simpa using h2
        rw [if_neg hh1] at heq
        have := (hrange k1 (mem_deferred hk1 h2)).1
        omega
    · have hh : ¬ hit bv k lvl = true := by rw [hhit]; simpa using h1
      rw [if_neg hh] at heq
      by_cases h2 : occ keys (lvl % U32) (tableSize keys.length)
          (bucket k1 (lvl % U32) (tableSize keys.length)) = 1
      · have hh1 : hit bv k1 lvl = true := by rw [hhit1]; simpa using h2
        have hlt : levelIdx bv k1 lvl < 64 * bv.length := by
          rw [hidx1, hlen]
          exact bucket_lt _ _ _ hsz
        have hb := rankBrute_lt_setBits bv _ hlt hh1
        rw [if_pos hh1] at heq
        have := (hrange k (mem_deferred hk h1)).1
        omega
      · have hh1 : ¬ hit bv k1 lvl = true := by rw [hhit1]; simpa using h2
        rw [if_neg hh1] at heq
        exact ih (prior + setBits bv) k k1 (mem_deferred hk h1) (mem_deferred hk1 h2) heq

/-- The first level that has the bit of a key of the construction set. -/
theorem Levels_first_hit {lvl : Nat} {keys : List Nat} {bvs : List bitvec}
    (h : Levels lvl keys bvs) :
    ∀ k, k ∈ keys → ∃ n, n < bvs.length ∧ hit (bvs.getD n []) k (lvl + n) = true ∧
      ∀ n1, n1 < n → hit (bvs.getD n1 []) k (lvl + n1) = false := by
  induction h with
  | done lvl => intro k hk; cases hk
  | level lvl keys bv bvs hne hsz hlen hbit hrest ih =>
    intro k hk
    obtain ⟨hidx, hhit⟩ := hit_level hlen hbit k
    by_cases h1 : occ keys (lvl % U32) (tableSize keys.length)
        (bucket k (lvl % U32) (tableSize keys.length)) = 1
    · have hh : hit bv k lvl = true := by rw [hhit]; simpa using h1
      refine ⟨0, by simp, by simpa using hh, ?_⟩
      intro n1 hn1
      cases hn1
    · have hh : hit bv k lvl = false := by rw [hhit]; simpa using h1
      obtain ⟨n, hn, hn1, hn2⟩ := ih k (mem_deferred hk h1)
      refine ⟨n + 1, by simp; omega, ?_, ?_⟩
      · have e : lvl + (n + 1) = lvl + 1 + n := by omega
        rw [e]
        simpa using hn1
      · intro n1 hlt
        cases n1 with
        | zero => simpa using hh
        | succ n1 =>
          have e : lvl + (n1 + 1) = lvl + 1 + n1 := by omega
          rw [e]
          simpa using hn2 n1 (by omega)

/-- The explicit form of `querySpecFrom`. -/
theorem querySpecFrom_explicit (key : Nat) :
    ∀ (rest : List bitvec) (i prior : Nat),
      ((∀ n, n < rest.length → hit (rest.getD n []) key (i + n) = false) →
        querySpecFrom key i prior rest = 0) ∧
      ∀ n, n < rest.length → hit (rest.getD n []) key (i + n) = true →
        (∀ n1, n1 < n → hit (rest.getD n1 []) key (i + n1) = false) →
        querySpecFrom key i prior rest
          = prior + ((rest.take n).map setBits).sum
            + rankBrute (rest.getD n []) (levelIdx (rest.getD n []) key (i + n)) + 1 := by
  intro rest
  induction rest with
  | nil =>
    intro i prior
    refine ⟨fun _ => rfl, ?_⟩
    intro n hn
    cases hn
  | cons bv rest ih =>
    intro i prior
    constructor
    · intro hall
      have h0 := hall 0 (by simp)
      simp only [List.getD_cons_zero, Nat.add_zero] at h0
      unfold querySpecFrom
      rw [if_neg (by simp [h0])]
      apply (ih (i + 1) (prior + setBits bv)).1
      intro n hn
      have := hall (n + 1) (by simp; omega)
      have e : i + 1 + n = i + (n + 1) := by omega
      rw [e]
      simpa using this
    · intro n hn hh hbefore
      unfold querySpecFrom
      cases n with
      | zero =>
        simp only [List.getD_cons_zero, Nat.add_zero] at hh ⊢
        rw [if_pos hh]
        simp
      | succ n =>
        have h0 := hbefore 0 (by omega)
        simp only [List.getD_cons_zero, Nat.add_zero] at h0
        rw [if_neg (by simp [h0])]
        have e : i + (n + 1) = i + 1 + n := by omega
        rw [e] at hh ⊢
        simp only [List.getD_cons_succ] at hh ⊢
        rw [(ih (i + 1) (prior + setBits bv)).2 n (by simpa using hn) hh ?_]
        · simp [List.take_succ_cons, Nat.add_assoc]
        · intro n1 hn1
          have := hbefore (n1 + 1) (by omega)
          have e1 : i + 1 + n1 = i + (n1 + 1) := by omega
          rw [e1]
          simpa using this

/-! ## Runs that never finish -/

theorem levelStep_total (st : BuildState) (hs : st.size ≠ 0) (h32 : st.size ≤ 4294967232)
    (ha : st.size ≤ 64 * st.a.length) (hc : st.size ≤ 64 * st.collide.length) :
    ∃ st1, levelStep st = some st1 ∧ st1.a = newBitvec (st.a.length % U32) ∧
      st1.collide = newBitvec ((newBitvec (st.a.length % U32)).length % U32) := by
  obtain ⟨a1, c1, h1, hla, hlc⟩ :=
    pass1_total st.level st.size st.keys hs st.a st.collide ha hc
  have hb : st.size ≤ 64 * (newBitvec st.size).length := by
    rw [length_newBitvec]
    unfold U32
    rw [Nat.mod_eq_of_lt (by omega)]
    omega
  obtain ⟨r, b, h2⟩ := pass2_total st.level st.size c1 st.keys hs (by rw [hlc]; exact hc)
    [] (newBitvec st.size) hb
  have e : levelStep st = some
      { keys := r, size := tableSize r.length, a := newBitvec (a1.length % U32),
        collide := newBitvec ((newBitvec (a1.length % U32)).length % U32),
        level := (st.level + 1) % U32, bits := st.bits ++ [b] } := by
    unfold levelStep
    rw [h1]
    simp only
    unfold pass2
    rw [h2]
  exact ⟨_, e, by simp [hla], by simp [hla]⟩

/-- A working list that every level defers whole is never emptied: the loop runs as
long as the fuel lasts. -/
theorem buildLoop_stuck (K : List Nat) (hne : K ≠ []) (hsz : tableSize K.length = 64)
    (hdef : ∀ l, deferred K l 64 = K) :
    ∀ (fuel : Nat) (st : BuildState), st.keys = K → st.size = 64 → st.a = [0] →
      st.collide = [0] → buildLoop fuel st = .diverge := by
  intro fuel
  induction fuel with
  | zero =>
    intro st hk _ _ _
    unfold buildLoop
    have : st.keys.length ≠ 0 := by rw [hk]; exact fun e => hne (List.length_eq_zero.mp e)
    rw [if_neg this]
  | succ fuel ih =>
    intro st hk hs ha hc
    have hlen : st.keys.length ≠ 0 := by
      rw [hk]; exact fun e => hne (List.length_eq_zero.mp e)
    obtain ⟨st1, hstep, ha1, hc1⟩ := levelStep_total st (by rw [hs]; decide) (by rw [hs]; decide)
      (by rw [hs, ha]; decide) (by rw [hs, hc]; decide)
    have hfa : ∀ j, testAt st.a j = false := by
      intro j
      rw [ha]
      exact testAt_newBitvec 1 j
    have hfc : ∀ j, testAt st.collide j = false := by
      intro j
      rw [hc]
      exact testAt_newBitvec 1 j
    obtain ⟨hkeys, hsz1, _, _, _, _, _⟩ := levelStep_spec hstep hfa hfc
    rw [buildLoop_step fuel st st1 hlen hstep]
    rw [hk, hs, hdef] at hkeys
    apply ih st1 hkeys
    · rw [hsz1, hkeys, hsz]
    · rw [ha1, ha]
      decide
    · rw [hc1, ha]
      decide

theorem newHashFunc_stuck (K : List Nat) (hne : K ≠ []) (hsz : tableSize K.length = 64)
    (hdef : ∀ l, deferred K l 64 = K) (fuel : Nat) : newHashFunc fuel K = .diverge := by
  unfold newHashFunc
  rw [buildLoop_stuck K hne hsz hdef fuel (initState K) rfl (by simp [initState, hsz])
    (by simp [initState, hsz]; decide) (by simp [initState, hsz]; decide)]

theorem deferred_replicate (m v l size : Nat) (hm : 2 ≤ m) :
    deferred (List.replicate m v) l size = List.replicate m v := by
  unfold deferred
  rw [List.filter_eq_self]
  intro k hk
  have hkv : k = v := (List.mem_replicate.mp hk).2
  subst hkv
  have : occ (List.replicate m k) l size (bucket k l size) = m := by
    unfold occ
    rw [List.countP_replicate]
    simp
  rw [this]
  simpa using hm

theorem newHashFunc_not_ok_of_dup {fuel : Nat} {keys : List Nat} {hf : hashFunc}
    (h : newHashFunc fuel keys = .ok hf) : keys.Nodup :=
  Levels_nodup (newHashFunc_levels h).1

/-- C4, evaluated: a key list made of `m >= 2` copies of one value is never emptied by
the level loop, whatever the fuel: every copy is deferred at every level, so
`newHashFunc` returns for no such list, and `Hashsort([5, 5, 5, 5])` does not return
`[5, 5, 5, 5]` but runs on for every fuel. -/
theorem duplicates_never_complete :
    (∀ m v fuel hf, 2 ≤ m → newHashFunc fuel (List.replicate m v) ≠ .ok hf) ∧
    (∀ l, deferred [5, 5, 5, 5] l 64 = [5, 5, 5, 5]) ∧
    (∀ fuel, newHashFunc fuel [5, 5, 5, 5] = .diverge) ∧
    (∀ fuel, Hashsort fuel (some [5, 5, 5, 5]) = .diverge) := by
  have hd : ∀ l, deferred [5, 5, 5, 5] l 64 = [5, 5, 5, 5] :=
    fun l => deferred_replicate 4 5 l 64 (by decide)
  have hn : ∀ fuel, newHashFunc fuel [5, 5, 5, 5] = .diverge :=
    fun fuel => newHashFunc_stuck [5, 5, 5, 5] (by simp) (by decide) hd fuel
  refine ⟨?_, hd, hn, ?_⟩
  · intro m v fuel hf hm h
    have hnd := newHashFunc_not_ok_of_dup h
    rw [List.nodup_replicate] at hnd
    omega
  · intro fuel
    have e : List.map toU64 [5, 5, 5, 5] = [5, 5, 5, 5] := by decide
    simp only [Hashsort, HashsortRun, newHashmap, e, hn fuel]
    simp

theorem rotl_zero (l : Nat) : rotl 0 l = 0 := by
  unfold rotl shl32 shr32
  split <;> split <;> simp

/-- C2, as stated, fails: the two distinct keys 11013388057781577488 and
16418077187761014413 hash to 1 and 65, whose upper halves are 0, so at every level both
have bucket 1 of the 64 and both are deferred: the construction never finishes and
there is no built function. -/
theorem distinct_keys_never_separate :
    [11013388057781577488, 16418077187761014413].Nodup ∧
    xorshift 11013388057781577488 = 1 ∧ xorshift 16418077187761014413 = 65 ∧
    (∀ l, bucket 11013388057781577488 l 64 = 1 ∧ bucket 16418077187761014413 l 64 = 1) ∧
    ∀ fuel, newHashFunc fuel [11013388057781577488, 16418077187761014413] = .diverge := by
  have hx1 : xorshift 11013388057781577488 = 1 := by decide
  have hx2 : xorshift 16418077187761014413 = 65 := by decide
  have hb : ∀ l, bucket 11013388057781577488 l 64 = 1 ∧ bucket 16418077187761014413 l 64 = 1 := by
    intro l
    unfold bucket
    simp only [hx1, hx2]
    have e1 : (1 >>> 32) % U32 = 0 := by decide
    have e2 : (65 >>> 32) % U32 = 0 := by decide
    rw [e1, e2, rotl_zero]
    exact ⟨by decide, by decide⟩
  refine ⟨by decide, hx1, hx2, hb, ?_⟩
  intro fuel
  apply newHashFunc_stuck _ (by simp) (by decide)
  intro l
  unfold deferred occ
  simp [(hb l).1, (hb l).2]

/-! ## Built hash functions -/

theorem querySpecFrom_le (key : Nat) :
    ∀ (rest : List bitvec) (i prior : Nat), (∀ bv ∈ rest, bv ≠ []) →
      querySpecFrom key i prior rest ≤ prior + (rest.map setBits).sum := by
  intro rest
  induction rest with
  | nil =>
    intro i prior _
    simp [querySpecFrom]
  | cons bv rest ih =>
    intro i prior hwf
    unfold querySpecFrom
    rw [List.map_cons, List.sum_cons]
    split
    · rename_i hh
      have hne := hwf bv (by simp)
      have hpos : 0 < bv.length := List.length_pos.mpr hne
      have hlt : levelIdx bv key i < 64 * bv.length := bucket_lt _ _ _ (by omega)
      have := rankBrute_lt_setBits bv _ hlt hh
      omega
    · have := ih (i + 1) (prior + setBits bv) (fun b hb => hwf b (List.mem_cons_of_mem _ hb))
      omega

theorem built_query {fuel : Nat} {keys : List Nat} {hf : hashFunc}
    (h : newHashFunc fuel keys = .ok hf) (key : Nat) :
    query hf key = some (querySpec hf.bits key % U64) ∧
    querySpec hf.bits key ≤ keys.length := by
  obtain ⟨hL, hr⟩ := newHashFunc_levels h
  have hwf := Levels_wf hL
  have hq := query_eq_spec hf.bits key hwf
  rw [← hr] at hq
  refine ⟨hq, ?_⟩
  have := querySpecFrom_le key hf.bits 0 0 (fun bv hbv => (hwf bv hbv).1)
  rw [Levels_setBits hL] at this
  unfold querySpec
  omega

theorem built_query_small {fuel : Nat} {keys : List Nat} {hf : hashFunc}
    (h : newHashFunc fuel keys = .ok hf) (hlen : keys.length < 2 ^ 63) (key : Nat) :
    query hf key = some (querySpec hf.bits key) := by
  obtain ⟨hq, hle⟩ := built_query h key
  rw [hq, Nat.mod_eq_of_lt]
  unfold U64
  omega

/-- C6: for every hash function built by `newHashFunc` (from fewer than `2 ^ 63` keys,
as every Go slice has) and every key, `query` returns a value: 0 if no level has the
occupancy bit set at the key's index, and otherwise, for the first level `i` whose bit
at the key's index is set, the number of set bits in all levels before `i`, plus the
number of set bits at positions below the index in level `i`, plus 1. -/
theorem query_returns_rank (fuel : Nat) (keys : List Nat) (hf : hashFunc) (key : Nat)
    (h : newHashFunc fuel keys = .ok hf) (hlen : keys.length < 2 ^ 63) :
    ∃ v, query hf key = some v ∧
      ((∀ i, i < hf.bits.length → hit (hf.bits.getD i []) key i = false) → v = 0) ∧
      ∀ i, i < hf.bits.length → hit (hf.bits.getD i []) key i = true →
        (∀ i1, i1 < i → hit (hf.bits.getD i1 []) key i1 = false) →
        v = ((hf.bits.take i).map setBits).sum
          + rankBrute (hf.bits.getD i []) (levelIdx (hf.bits.getD i []) key i) + 1 := by
  refine ⟨_, built_query_small h hlen key, ?_, ?_⟩
  · intro hall
    apply (querySpecFrom_explicit key hf.bits 0 0).1
    intro n hn
    rw [Nat.zero_add]
    exact hall n hn
  · intro i hi hh hbefore
    have := (querySpecFrom_explicit key hf.bits 0 0).2 i hi (by rw [Nat.zero_add]; exact hh)
      (by intro n1 hn1; rw [Nat.zero_add]; exact hbefore n1 hn1)
    rw [Nat.zero_add, Nat.zero_add] at this
    exact this

/-- Witness of `query_returns_rank`. -/
theorem query_returns_rank_witness :
    ∃ v, query { bits := [[268435456]], ranks := [[0]] } 5 = some v ∧
      ((∀ i, i < [[268435456]].length → hit ([[268435456]].getD i []) 5 i = false) → v = 0) ∧
      ∀ i, i < [[268435456]].length → hit ([[268435456]].getD i []) 5 i = true →
        (∀ i1, i1 < i → hit ([[268435456]].getD i1 []) 5 i1 = false) →
        v = (([[268435456]].take i).map setBits).sum
          + rankBrute ([[268435456]].getD i []) (levelIdx ([[268435456]].getD i []) 5 i) + 1 :=
  query_returns_rank 1 [5] { bits := [[268435456]], ranks := [[0]] } 5 (by decide) (by decide)

theorem built_query_mem {fuel : Nat} {keys : List Nat} {hf : hashFunc}
    (h : newHashFunc fuel keys = .ok hf) (hlen : keys.length < 2 ^ 63) :
    (∀ k, k ∈ keys → ∃ v, query hf k = some v ∧ 1 ≤ v ∧ v ≤ keys.length) ∧
    (∀ k k1, k ∈ keys → k1 ∈ keys → query hf k = query hf k1 → k = k1) := by
  obtain ⟨hL, _⟩ := newHashFunc_levels h
  constructor
  · intro k hk
    refine ⟨_, built_query_small h hlen k, ?_, (built_query h k).2⟩
    have := (Levels_range hL 0 k hk).1
    unfold querySpec
    omega
  · intro k k1 hk hk1 heq
    rw [built_query_small h hlen k, built_query_small h hlen k1] at heq
    exact Levels_inj hL 0 k k1 hk hk1 (Option.some.inj heq)

/-- C12: whenever `newHashFunc` completes on a key list `K` (of fewer than `2 ^ 63`
keys, as every Go slice has), the total number of set bits over all levels equals
`len(K)`, `query` gives every element of `K` a result in `[1, len(K)]`, and `query` is
injective on the elements of `K`. -/
theorem completed_construction_is_injective (fuel : Nat) (keys : List Nat) (hf : hashFunc)
    (h : newHashFunc fuel keys = .ok hf) (hlen : keys.length < 2 ^ 63) :
    (hf.bits.map setBits).sum = keys.length ∧
    (∀ k, k ∈ keys → ∃ v, query hf k = some v ∧ 1 ≤ v ∧ v ≤ keys.length) ∧
    (∀ k k1, k ∈ keys → k1 ∈ keys → query hf k = query hf k1 → k = k1) :=
  ⟨Levels_setBits (newHashFunc_levels h).1, (built_query_mem h hlen).1, (built_query_mem h hlen).2⟩

/-- Witness of `completed_construction_is_injective`. -/
theorem completed_construction_is_injective_witness :
    (([[35321815236609]] : List bitvec).map setBits).sum
      = [2, 1, 18446744073709551615, 0].length ∧
    (∀ k, k ∈ [2, 1, 18446744073709551615, 0] →
      ∃ v, query { bits := [[35321815236609]], ranks := [[0]] } k = some v ∧ 1 ≤ v ∧
        v ≤ [2, 1, 18446744073709551615, 0].length) ∧
    (∀ k k1, k ∈ [2, 1, 18446744073709551615, 0] → k1 ∈ [2, 1, 18446744073709551615, 0] →
      query { bits := [[35321815236609]], ranks := [[0]] } k
        = query { bits := [[35321815236609]], ranks := [[0]] } k1 → k = k1) :=
  completed_construction_is_injective 1 [2, 1, 18446744073709551615, 0]
    { bits := [[35321815236609]], ranks := [[0]] } (by decide) (by decide)

/-- C2, amended: for every key list `K` of pairwise distinct values on which
`newHashFunc` completes (fewer than `2 ^ 63` keys), the built function is a bijection
from `K` onto `{1, ..., |K|}`: `query(k)` lies in `[1, |K|]` for every `k` in `K`,
distinct keys get distinct results, and every index in `[1, |K|]` is the result of
exactly one key. -/
theorem completed_construction_is_bijection (fuel : Nat) (keys : List Nat) (hf : hashFunc)
    (hd : keys.Nodup) (h : newHashFunc fuel keys = .ok hf) (hlen : keys.length < 2 ^ 63) :
    (∀ k, k ∈ keys → ∃ v, query hf k = some v ∧ 1 ≤ v ∧ v ≤ keys.length) ∧
    (∀ k k1, k ∈ keys → k1 ∈ keys → k ≠ k1 → query hf k ≠ query hf k1) ∧
    (∀ v, 1 ≤ v → v ≤ keys.length →
      ∃ k, k ∈ keys ∧ query hf k = some v ∧ ∀ k1, k1 ∈ keys → query hf k1 = some v → k1 = k) := by
  obtain ⟨hrange, hinj⟩ := built_query_mem h hlen
  refine ⟨hrange, fun k k1 hk hk1 hne heq => hne (hinj k k1 hk hk1 heq), ?_⟩
  intro v hv1 hv2
  have hq : ∀ k, query hf k = some (querySpec hf.bits k) := built_query_small h hlen
  have himg : (keys.toFinset.image (querySpec hf.bits)) = Finset.Icc 1 keys.length := by
    apply Finset.eq_of_subset_of_card_le
    · intro x hx
      obtain ⟨k, hk, rfl⟩ := Finset.mem_image.mp hx
      obtain ⟨w, hw, h1, h2⟩ := hrange k (List.mem_toFinset.mp hk)
      rw [hq k] at hw
      cases hw
      exact Finset.mem_Icc.mpr ⟨h1, h2⟩
    · rw [Finset.card_image_of_injOn, List.toFinset_card_of_nodup hd]
      · simp
      · intro a ha b hb hab
        apply hinj a b (List.mem_toFinset.mp ha) (List.mem_toFinset.mp hb)
        rw [hq a, hq b]
        exact congrArg some hab
  have hv : v ∈ keys.toFinset.image (querySpec hf.bits) := by
    rw [himg]
    exact Finset.mem_Icc.mpr ⟨hv1, hv2⟩
  obtain ⟨k, hk, hkv⟩ := Finset.mem_image.mp hv
  have hkm := List.mem_toFinset.mp hk
  refine ⟨k, hkm, by rw [hq k, hkv], ?_⟩
  intro k1 hk1 h1
  apply hinj k1 k hk1 hkm
  rw [h1, hq k, hkv]

/-- Witness of `completed_construction_is_bijection`. -/
theorem completed_construction_is_bijection_witness :
    (∀ k, k ∈ [7, 9] → ∃ v, query { bits := [[9007199254872064]], ranks := [[0]] } k = some v ∧
      1 ≤ v ∧ v ≤ [7, 9].length) ∧
    (∀ k k1, k ∈ [7, 9] → k1 ∈ [7, 9] → k ≠ k1 →
      query { bits := [[9007199254872064]], ranks := [[0]] } k
        ≠ query { bits := [[9007199254872064]], ranks := [[0]] } k1) ∧
    (∀ v, 1 ≤ v → v ≤ [7, 9].length →
      ∃ k, k ∈ [7, 9] ∧ query { bits := [[9007199254872064]], ranks := [[0]] } k = some v ∧
        ∀ k1, k1 ∈ [7, 9] →
          query { bits := [[9007199254872064]], ranks := [[0]] } k1 = some v → k1 = k) :=
  completed_construction_is_bijection 1 [7, 9] { bits := [[9007199254872064]], ranks := [[0]] }
    (by decide) (by decide) (by decide)

theorem querySpecFrom_eq_zero_iff (key : Nat) :
    ∀ (rest : List bitvec) (i prior : Nat),
      querySpecFrom key i prior rest = 0 ↔
        ∀ n, n < rest.length → hit (rest.getD n []) key (i + n) = false := by
  intro rest
  induction rest with
  | nil =>
    intro i prior
    simp [querySpecFrom]
  | cons bv rest ih =>
    intro i prior
    unfold querySpecFrom
    by_cases hh : hit bv key i = true
    · rw [if_pos hh]
      constructor
      · intro h0
        omega
      · intro hall
        have := hall 0 (by simp)
        simp only [List.getD_cons_zero, Nat.add_zero] at this
        rw [this] at hh
        cases hh
    · rw [if_neg hh, ih (i + 1) (prior + setBits bv)]
      constructor
      · intro hall n hn
        cases n with
        | zero => simpa using hh
        | succ n =>
          have := hall n (by simpa using hn)
          have e : i + (n + 1) = i + 1 + n := by omega
          rw [e]
          simpa using this
      · intro hall n hn
        have := hall (n + 1) (by simp; omega)
        have e : i + 1 + n = i + (n + 1) := by omega
        rw [e]
        simpa using this

/-- C7, as stated, fails: the function built for `K = [5]` sets bit 28 of its one
level, and the key 8, which is not in `K`, has index 28 there as well, so `query(8)`
returns 1 and not the sentinel 0. -/
theorem nonmember_gets_index :
    newHashFunc 1 [5] = .ok { bits := [[268435456]], ranks := [[0]] } ∧ 8 ∉ [5] ∧
    levelIdx [268435456] 5 0 = 28 ∧ levelIdx [268435456] 8 0 = 28 ∧
    query { bits := [[268435456]], ranks := [[0]] } 8 = some 1 := by
  refine ⟨by decide, by decide, by decide, by decide, by decide⟩

/-- C7, amended: for every key list `K` on which construction completes (fewer than
`2 ^ 63` keys) and every key `x`, `query(x)` returns the sentinel 0 exactly when no
level has the occupancy bit at the index of `x` set; it never returns 0 for an element
of `K`, so a result 0 says that `x` is not in `K`. -/
theorem sentinel_iff_no_level_hit (fuel : Nat) (keys : List Nat) (hf : hashFunc) (x : Nat)
    (h : newHashFunc fuel keys = .ok hf) (hlen : keys.length < 2 ^ 63) :
    (query hf x = some 0 ↔ ∀ i, i < hf.bits.length → hit (hf.bits.getD i []) x i = false) ∧
    (query hf x = some 0 → x ∉ keys) := by
  have hq := built_query_small h hlen x
  constructor
  · rw [hq]
    have := querySpecFrom_eq_zero_iff x hf.bits 0 0
    simp only [Nat.zero_add] at this
    rw [← this]
    unfold querySpec
    simp
  · intro h0 hx
    obtain ⟨v, hv, h1, _⟩ := (built_query_mem h hlen).1 x hx
    rw [h0] at hv
    cases hv
    omega

/-- Witness of `sentinel_iff_no_level_hit`. -/
theorem sentinel_iff_no_level_hit_witness :
    (query { bits := [[268435456]], ranks := [[0]] } 6 = some 0 ↔
      ∀ i, i < [[268435456]].length → hit ([[268435456]].getD i []) 6 i = false) ∧
    (query { bits := [[268435456]], ranks := [[0]] } 6 = some 0 → 6 ∉ [5]) :=
  sentinel_iff_no_level_hit 1 [5] { bits := [[268435456]], ranks := [[0]] } 6 (by decide)
    (by decide)

theorem bit_levelIdx (bv : bitvec) (k i : Nat) (hne : bv ≠ []) :
    bit bv (levelIdx bv k i) = some (hit bv k i).toNat := by
  have hpos : 0 < bv.length := List.length_pos.mpr hne
  have hlt : levelIdx bv k i < 64 * bv.length := bucket_lt _ _ _ (by omega)
  rw [bit_eq_testAt (by omega)]
  rfl

/-- C9, as stated, fails: the function built for the ten keys 21, ..., 30 has two
levels; the key 30 is placed at level 0, where its bit is set, and at level 1 its
index is that of one of the two keys placed there, so its bit is set at the later
level as well. -/
theorem bit_set_at_later_level :
    newHashFunc 2 [21, 22, 23, 24, 25, 26, 27, 28, 29, 30]
      = .ok { bits := [[4683815097972817920], [274878169088]], ranks := [[0], [8]] } ∧
    30 ∈ [21, 22, 23, 24, 25, 26, 27, 28, 29, 30] ∧
    bit [4683815097972817920] (levelIdx [4683815097972817920] 30 0) = some 1 ∧
    bit [274878169088] (levelIdx [274878169088] 30 1) = some 1 := by
  refine ⟨by decide, by decide, by decide, by decide⟩

/-- C9, amended: for every key list `K` on which `newHashFunc` completes and every key
`k` in `K`, there is a level `i` whose occupancy bit at the index of `k` is set, and
the bit at the index of `k` is clear at every earlier level. -/
theorem first_set_level (fuel : Nat) (keys : List Nat) (hf : hashFunc) (k : Nat)
    (h : newHashFunc fuel keys = .ok hf) (hk : k ∈ keys) :
    ∃ i, i < hf.bits.length ∧
      bit (hf.bits.getD i []) (levelIdx (hf.bits.getD i []) k i) = some 1 ∧
      ∀ i1, i1 < i →
        bit (hf.bits.getD i1 []) (levelIdx (hf.bits.getD i1 []) k i1) = some 0 := by
  obtain ⟨hL, _⟩ := newHashFunc_levels h
  have hwf := Levels_wf hL
  have hne : ∀ i, i < hf.bits.length → hf.bits.getD i [] ≠ [] := by
    intro i hi
    have hm : hf.bits.getD i [] ∈ hf.bits := by
      rw [List.getD_eq_getElem _ _ hi]
      exact List.getElem_mem hi
    exact (hwf _ hm).1
  obtain ⟨n, hn, hh, hb⟩ := Levels_first_hit hL k hk
  rw [Nat.zero_add] at hh
  refine ⟨n, hn, ?_, ?_⟩
  · rw [bit_levelIdx _ _ _ (hne n hn), hh]
    rfl
  · intro i1 hi1
    have := hb i1 hi1
    rw [Nat.zero_add] at this
    rw [bit_levelIdx _ _ _ (hne i1 (by omega)), this]
    rfl

/-- Witness of `first_set_level`. -/
theorem first_set_level_witness :
    ∃ i, i < [[4683815097972817920], [274878169088]].length ∧
      bit ([[4683815097972817920], [274878169088]].getD i [])
        (levelIdx ([[4683815097972817920], [274878169088]].getD i []) 21 i) = some 1 ∧
      ∀ i1, i1 < i →
        bit ([[4683815097972817920], [274878169088]].getD i1 [])
          (levelIdx ([[4683815097972817920], [274878169088]].getD i1 []) 21 i1) = some 0 :=
  first_set_level 2 [21, 22, 23, 24, 25, 26, 27, 28, 29, 30]
    { bits := [[4683815097972817920], [274878169088]], ranks := [[0], [8]] } 21 (by decide)
    (by decide)

/-! ## Rank samples -/

theorem split_at_getElem? {bits : List bitvec} {L : Nat} {bv : bitvec} (h : bits[L]? = some bv) :
    bits = bits.take L ++ bv :: bits.drop (L + 1) ∧ (bits.take L).length = L := by
  have hL : L < bits.length := by
    by_contra hc
    rw [List.getElem?_eq_none (Nat.le_of_not_lt hc)] at h
    cases h
  rw [List.getElem?_eq_getElem hL] at h
  cases h
  refine ⟨?_, by rw [List.length_take]; omega⟩
  rw [← List.drop_eq_getElem_cons hL, List.take_append_drop]

theorem sum_setBits_split (bits : List bitvec) (L : Nat) (bv : bitvec)
    (h : bits[L]? = some bv) :
    ((bits.take L).map setBits).sum + setBits bv ≤ (bits.map setBits).sum := by
  have e := (split_at_getElem? h).1
  have : (bits.map setBits).sum
      = ((bits.take L).map setBits).sum + (setBits bv + ((bits.drop (L + 1)).map setBits).sum) := by
    conv_lhs => rw [e]
    simp
  omega

/-- C8, as stated, fails: in the function built for the keys 0, ..., 8 the first level
has 7 set bits, and the first sample of the second level, `ranks[1][0]`, is 7, while no
bit of `bits[1]` lies before word 0; the rank computed from that sample for position 25
of `bits[1]` is 7, while `bits[1]` has no set bit below position 25. -/
theorem rank_sample_includes_earlier_levels :
    newHashFunc 2 [0, 1, 2, 3, 4, 5, 6, 7, 8]
      = .ok { bits := [[9112752912203777], [70866960384]], ranks := [[0], [7]] } ∧
    configRanks [[9112752912203777], [70866960384]] = [[0], [7]] ∧
    rankBrute [70866960384] (512 * 0) = 0 ∧
    rankSpan [70866960384] 25 7 = some 7 ∧
    onesCount64 (shl64 70866960384 (sub32 64 (25 % 64))) = 0 ∧
    rankBrute [70866960384] 25 = 0 := by
  refine ⟨by decide, by decide, by decide, by decide, by decide, by decide⟩

/-- C8, amended: for every list of levels whose rank tables were filled by
`configRanks` (fewer than `2 ^ 64` set bits in all) and every level `L`, the sample
`ranks[L][i]` is the number of set bits in all levels before `L` plus the number of
set bits in words `0 .. 8*i-1` of `bits[L]`, and the rank computed from the sample for
a valid position `n` is the number of set bits in all levels before `L` plus the
brute-force count of the set bits of `bits[L]` at positions below `n`. -/
theorem rank_samples_cumulative (bits : List bitvec) (L : Nat) (bv : bitvec)
    (hL : bits[L]? = some bv) (hsum : (bits.map setBits).sum < U64) :
    ∃ r, (configRanks bits)[L]? = some r ∧ r.length = (bv.length + 7) / 8 ∧
      (∀ i, 8 * i < bv.length →
        r[i]? = some (((bits.take L).map setBits).sum + rankBrute bv (512 * i))) ∧
      ∀ n, n < 64 * bv.length →
        ∃ s w t, r[n / 512]? = some s ∧ bv[n / 64]? = some w ∧ rankSpan bv n s = some t ∧
          (t + onesCount64 (shl64 w (sub32 64 (n % 64)))) % U64
            = ((bits.take L).map setBits).sum + rankBrute bv n := by
  obtain ⟨hsplit, hlen⟩ := split_at_getElem? hL
  have hle := sum_setBits_split bits L bv hL
  have hr := (rankLevels_spec bits 0).2 (bits.take L) bv (bits.drop (L + 1)) hsplit
  rw [hlen, Nat.zero_mod, Nat.zero_add] at hr
  obtain ⟨hrl, hrs, _⟩ := rankWords_spec bv ((bits.take L).map setBits).sum
  have hbound : ∀ n, n ≤ 64 * bv.length →
      ((bits.take L).map setBits).sum + rankBrute bv n < U64 := by
    intro n hn
    have : rankBrute bv n ≤ setBits bv := rankBrute_mono bv hn
    omega
  refine ⟨_, hr, hrl, ?_, ?_⟩
  · intro i hi
    rw [hrs i hi, popWords_take, Nat.mod_eq_of_lt]
    · have e : 64 * (8 * i) = 512 * i := by omega
      rw [e]
    · exact hbound _ (by omega)
  · intro n hn
    have hw : n / 64 < bv.length := by omega
    refine ⟨_, bv[n / 64], _, hrs (n / 512) (by omega), List.getElem?_eq_getElem hw,
      rankSpan_spec bv n _ hw, ?_⟩
    rw [onesCount64_shl64 _ _ (Nat.mod_lt _ (by norm_num)), Nat.mod_add_mod]
    have h1 := rankBrute_word bv (n / 64) (n % 64) (by omega)
    rw [Nat.div_add_mod] at h1
    have hg : bv.getD (n / 64) 0 = bv[n / 64] := by
      simp [List.getD_eq_getElem?_getD, List.getElem?_eq_getElem hw]
    rw [hg] at h1
    rw [Nat.add_assoc, ← h1, Nat.mod_eq_of_lt (hbound n (by omega))]

/-- Witness of `rank_samples_cumulative`. -/
theorem rank_samples_cumulative_witness :
    ∃ r, (configRanks [[9112752912203777], [70866960384]])[1]? = some r ∧
      r.length = ([70866960384].length + 7) / 8 ∧
      (∀ i, 8 * i < [70866960384].length →
        r[i]? = some ((([[9112752912203777], [70866960384]].take 1).map setBits).sum
          + rankBrute [70866960384] (512 * i))) ∧
      ∀ n, n < 64 * [70866960384].length →
        ∃ s w t, r[n / 512]? = some s ∧ [70866960384][n / 64]? = some w ∧
          rankSpan [70866960384] n s = some t ∧
          (t + onesCount64 (shl64 w (sub32 64 (n % 64)))) % U64
            = (([[9112752912203777], [70866960384]].take 1).map setBits).sum
              + rankBrute [70866960384] n :=
  rank_samples_cumulative [[9112752912203777], [70866960384]] 1 [70866960384] (by decide)
    (by decide)

/-! ## Bounds of the accesses of query -/

theorem afterLevels_step (n : Nat) (st st1 : BuildState) (h : st.keys.length ≠ 0)
    (hs : levelStep st = some st1) : afterLevels (n + 1) st = afterLevels n st1 := by
  simp [afterLevels, h, hs]

theorem buildLoop_sizes :
    ∀ (fuel : Nat) (st : BuildState) (bits : List bitvec),
      buildLoop fuel st = .ok bits →
      (∀ j, testAt st.a j = false) → (∀ j, testAt st.collide j = false) →
      st.size = tableSize st.keys.length → st.level = st.bits.length % U32 →
      ∀ n, st.bits.length + n < bits.length →
        ∃ stn, afterLevels n st = some stn ∧ stn.keys ≠ [] ∧ stn.size ≠ 0 ∧
          stn.size = tableSize stn.keys.length ∧
          64 * (bits.getD (st.bits.length + n) []).length = stn.size := by
  intro fuel
  induction fuel with
  | zero =>
    intro st bits h _ _ _ _ n hn
    unfold buildLoop at h
    split at h
    · cases h
      omega
    · cases h
  | succ fuel ih =>
    intro st bits h ha hc hsz hlv n hn
    have hfull := h
    unfold buildLoop at h
    split at h
    · cases h
      omega
    · rename_i hk
      have hne : st.keys ≠ [] := fun e => hk (by rw [e]; rfl)
      split at h
      · cases h
      · rename_i st1 hstep
        obtain ⟨hkeys, hsz1, hlv1, ha1, hc1, hs0, bv, hbits, hlen, hbit⟩ :=
          levelStep_spec hstep ha hc
        have hlv2 : st1.level = st1.bits.length % U32 := by
          rw [hlv1, hbits, hlv, List.length_append, List.length_singleton, Nat.mod_add_mod]
        obtain ⟨bvs, hb, _⟩ := buildLoop_levels fuel st1 bits h ha1 hc1 hsz1 hlv2
        cases n with
        | zero =>
          refine ⟨st, rfl, hne, hs0 hne, hsz, ?_⟩
          rw [hb, hbits, Nat.add_zero]
          have e : (st.bits ++ [bv] ++ bvs).getD st.bits.length [] = bv := by
            rw [List.append_assoc, List.getD_eq_getElem?_getD,
              List.getElem?_append_right (Nat.le_refl _)]
            simp
          rw [e, hlen, hsz, length_newBitvec_tableSize]
        | succ n =>
          rw [afterLevels_step n st st1 hk hstep]
          have e : st.bits.length + (n + 1) = st1.bits.length + n := by
            rw [hbits, List.length_append, List.length_singleton]
            omega
          rw [e] at hn ⊢
          exact ih st1 bits h ha1 hc1 hsz1 hlv2 n hn

/-- C18: for every hash function returned by `newHashFunc` and every key, `query`
returns a value (no out-of-range access, no division by zero), and at each level `i`
the modulus `uint32(len(bits[i]) * 64)` is non-zero and is the table size with which
the level was built, the index `idx` of the key is below it, `idx/64 < len(bits[i])`
and `idx/512 < len(ranks[i])`. -/
theorem query_in_bounds (fuel : Nat) (keys : List Nat) (hf : hashFunc) (key : Nat)
    (h : newHashFunc fuel keys = .ok hf) :
    (∃ v, query hf key = some v) ∧ hf.ranks.length = hf.bits.length ∧
    ∀ i, i < hf.bits.length →
      ∃ st r, afterLevels i (initState keys) = some st ∧ hf.ranks[i]? = some r ∧
        ((hf.bits.getD i []).length * 64) % U32 ≠ 0 ∧
        ((hf.bits.getD i []).length * 64) % U32 = st.size ∧
        levelIdx (hf.bits.getD i []) key i < st.size ∧
        levelIdx (hf.bits.getD i []) key i / 64 < (hf.bits.getD i []).length ∧
        levelIdx (hf.bits.getD i []) key i / 512 < r.length := by
  obtain ⟨hL, hr⟩ := newHashFunc_levels h
  have hwf := Levels_wf hL
  refine ⟨⟨_, (built_query h key).1⟩, ?_, ?_⟩
  · rw [hr]
    exact (rankLevels_spec hf.bits 0).1
  · intro i hi
    have hbl : ∃ bits, buildLoop fuel (initState keys) = .ok bits ∧ hf.bits = bits := by
      unfold newHashFunc at h
      split at h
      · rename_i bits hb
        cases h
        exact ⟨bits, hb, rfl⟩
      · cases h
      · cases h
    obtain ⟨bits, hb, hbe⟩ := hbl
    obtain ⟨ha, hc, hsz, hlv, hbits0, _⟩ := initState_fresh keys
    obtain ⟨st, hst, _, hs0, _, hlen⟩ :=
      buildLoop_sizes fuel _ bits hb ha hc hsz hlv i (by rw [hbits0, ← hbe]; simpa using hi)
    rw [hbits0, List.length_nil, Nat.zero_add, ← hbe] at hlen
    have hget : hf.bits[i]? = some (hf.bits.getD i []) := by
      rw [List.getD_eq_getElem _ _ hi, List.getElem?_eq_getElem hi]
    obtain ⟨hsplit, hlen2⟩ := split_at_getElem? hget
    have hrk := (rankLevels_spec hf.bits 0).2 _ _ _ hsplit
    rw [hlen2] at hrk
    have hrl := (rankWords_spec (hf.bits.getD i [])
      (0 + ((hf.bits.take i).map setBits).sum)).1
    have hm : hf.bits.getD i [] ∈ hf.bits := by
      rw [List.getD_eq_getElem _ _ hi]
      exact List.getElem_mem hi
    obtain ⟨_, h32⟩ := hwf _ hm
    have hmod : ((hf.bits.getD i []).length * 64) % U32 = st.size := by
      rw [Nat.mul_comm, Nat.mod_eq_of_lt h32, hlen]
    have hidx : levelIdx (hf.bits.getD i []) key i < st.size := by
      rw [← hlen]
      exact bucket_lt _ _ _ (by rw [hlen]; exact hs0)
    refine ⟨st, _, hst, by rw [hr]; exact hrk, by rw [hmod]; exact hs0, hmod, hidx,
      by omega, ?_⟩
    rw [hrl]
    omega

/-- Witness of `query_in_bounds`. -/
theorem query_in_bounds_witness :
    (∃ v, query { bits := [[268435456]], ranks := [[0]] } 8 = some v) ∧
    ([[0]] : List bitvec).length = ([[268435456]] : List bitvec).length ∧
    ∀ i, i < ([[268435456]] : List bitvec).length →
      ∃ st r, afterLevels i (initState [5]) = some st ∧ ([[0]] : List bitvec)[i]? = some r ∧
        (([[268435456]].getD i []).length * 64) % U32 ≠ 0 ∧
        (([[268435456]].getD i []).length * 64) % U32 = st.size ∧
        levelIdx ([[268435456]].getD i []) 8 i < st.size ∧
        levelIdx ([[268435456]].getD i []) 8 i / 64 < ([[268435456]].getD i []).length ∧
        levelIdx ([[268435456]].getD i []) 8 i / 512 < r.length :=
  query_in_bounds 1 [5] { bits := [[268435456]], ranks := [[0]] } 8 (by decide)

/-! ## One level -/

theorem testAt_of_zero {b : bitvec} (h : ∀ w ∈ b, w = 0) (j : Nat) : testAt b j = false := by
  unfold testAt
  rw [List.getD_eq_getElem?_getD]
  by_cases hj : j / 64 < b.length
  · rw [List.getElem?_eq_getElem hj]
    have := h _ (List.getElem_mem hj)
    simp [this]
  · rw [List.getElem?_eq_none (Nat.le_of_not_lt hj)]
    simp

/-- C13: one level of `newHashFunc` on a working key list, with fresh `a` and `collide`
(all words zero) of a capacity of at least the table size: both passes run without a
panic; the level's occupancy bit vector has bit `j` set iff exactly one key occurrence
of the working list has index `j`; the deferred list is the sublist, in order, of the
occurrences whose index is shared with another occurrence; and the second pass leaves
the same deferred keys, as the first cells of the buffer, when `redo` shares the
storage of the list being read. -/
theorem level_occupancy_and_deferred (level size : Nat) (keys rest : List Nat) (a c : bitvec)
    (hs : size ≠ 0) (h32 : size ≤ 4294967232)
    (ha0 : ∀ w ∈ a, w = 0) (hc0 : ∀ w ∈ c, w = 0)
    (ha : size ≤ 64 * a.length) (hc : size ≤ 64 * c.length) :
    ∃ a1 c1 bv buf1,
      pass1 level size keys a c = some (a1, c1) ∧
      pass2 level size c1 keys (newBitvec size) = some (deferred keys level size, bv) ∧
      (∀ j, j < size → bit bv j = some (if occ keys level size j = 1 then 1 else 0)) ∧
      deferred keys level size
        = keys.filter (fun k => decide (2 ≤ occ keys level size (bucket k level size))) ∧
      (deferred keys level size).Sublist keys ∧
      pass2Shared level size c1 (keys ++ rest) keys.length (newBitvec size)
        = some (buf1, (deferred keys level size).length, bv) ∧
      buf1.take (deferred keys level size).length = deferred keys level size := by
  obtain ⟨a1, c1, h1, hla, hlc⟩ := pass1_total level size keys hs a c ha hc
  have hb : size ≤ 64 * (newBitvec size).length := by
    rw [length_newBitvec]
    unfold U32
    rw [Nat.mod_eq_of_lt (by omega)]
    omega
  obtain ⟨r, bv, h2⟩ := pass2_total level size c1 keys hs (by rw [hlc]; exact hc)
    [] (newBitvec size) hb
  obtain ⟨_, hc1, _, _, _⟩ := pass1_spec h1 (testAt_of_zero ha0) (testAt_of_zero hc0)
  obtain ⟨hl, _, hr, hbit⟩ := pass2_inv keys h2
  have hdef : r = deferred keys level size := by
    simp only [List.nil_append] at hr
    rw [hr]
    unfold deferred
    apply List.filter_congr
    intro k _
    rw [hc1]
  subst hdef
  have hp2 : pass2 level size c1 keys (newBitvec size) = some (deferred keys level size, bv) := h2
  have hp2t : pass2 level size c1 ((keys ++ rest).take keys.length) (newBitvec size)
      = some (deferred keys level size, bv) := by
    rw [List.take_left']
    · exact hp2
    · rfl
  obtain ⟨buf1, hsh, htk, _, _, _⟩ := pass2Shared_eq (keys ++ rest) (newBitvec size)
    keys.length _ _ (by simp) hp2t
  refine ⟨a1, c1, bv, buf1, h1, hp2, ?_, rfl, List.filter_sublist _, hsh, htk⟩
  intro j hj
  rw [bit_eq_testAt (by rw [hl]; omega), hbit j, testAt_newBitvec, Bool.false_or, any_and_const,
    any_bucket_iff, hc1 j]
  by_cases h1 : occ keys level size j = 1
  · simp [h1]
  · rw [if_neg h1]
    have : (decide (1 ≤ occ keys level size j) && !decide (2 ≤ occ keys level size j)) = false := by
      rw [Bool.eq_false_iff]
      intro ht
      simp only [Bool.and_eq_true, decide_eq_true_eq, Bool.not_eq_true',
        decide_eq_false_iff_not] at ht
      omega
    rw [this]
    rfl

/-- Witness of `level_occupancy_and_deferred`. -/
theorem level_occupancy_and_deferred_witness :
    ∃ a1 c1 bv buf1,
      pass1 1 64 [5, 7, 5] [0] [0] = some (a1, c1) ∧
      pass2 1 64 c1 [5, 7, 5] (newBitvec 64) = some (deferred [5, 7, 5] 1 64, bv) ∧
      (∀ j, j < 64 → bit bv j = some (if occ [5, 7, 5] 1 64 j = 1 then 1 else 0)) ∧
      deferred [5, 7, 5] 1 64
        = [5, 7, 5].filter (fun k => decide (2 ≤ occ [5, 7, 5] 1 64 (bucket k 1 64))) ∧
      (deferred [5, 7, 5] 1 64).Sublist [5, 7, 5] ∧
      pass2Shared 1 64 c1 ([5, 7, 5] ++ [9]) [5, 7, 5].length (newBitvec 64)
        = some (buf1, (deferred [5, 7, 5] 1 64).length, bv) ∧
      buf1.take (deferred [5, 7, 5] 1 64).length = deferred [5, 7, 5] 1 64 :=
  level_occupancy_and_deferred 1 64 [5, 7, 5] [9] [0] [0] (by decide) (by decide)
    (by decide) (by decide) (by decide) (by decide)

/-- C14, evaluated: for the 98 distinct keys 0, ..., 97 the first level has table size
256 and defers 33 keys, so the second level has table size 128; but the new `a` is
`newBitvec(uint32(len(a)))`, made from the 4 words of the old one, and has 1 word, as
has the new `collide`: their capacity is 64 bits, not 128, the third deferred key has
index 81, and `newHashFunc` panics with an index out of range. -/
theorem later_level_vectors_too_small :
    (initState (List.range 98)).size = 256 ∧ (initState (List.range 98)).a.length = 4 ∧
    (∃ st, levelStep (initState (List.range 98)) = some st ∧ st.keys.length = 33 ∧
      st.size = 128 ∧ st.a = [0] ∧ st.collide = [0] ∧
      keyIdx (st.keys.getD 2 0) st.level st.size = some 81 ∧ bit st.collide 81 = none ∧
      levelStep st = none) ∧
    ∀ fuel, newHashFunc (fuel + 2) (List.range 98) = .panic := by
  have hst : levelStep (initState (List.range 98)) = some
      { keys := [0, 5, 7, 17, 21, 23, 26, 28, 29, 33, 35, 38, 40, 42, 43, 47, 50, 52, 54, 57, 59,
          67, 68, 69, 70, 77, 86, 88, 92, 94, 95, 96, 97],
        size := 128, a := [0], collide := [0], level := 1,
        bits := [[81416637131047112, 13261001698421991632, 441405832636166144,
          9251034240001246608]] } := by decide
  have hst2 : levelStep
      { keys := [0, 5, 7, 17, 21, 23, 26, 28, 29, 33, 35, 38, 40, 42, 43, 47, 50, 52, 54, 57, 59,
          67, 68, 69, 70, 77, 86, 88, 92, 94, 95, 96, 97],
        size := 128, a := [0], collide := [0], level := 1,
        bits := [[81416637131047112, 13261001698421991632, 441405832636166144,
          9251034240001246608]] } = none := by decide
  refine ⟨by decide, by decide, ⟨_, hst, by decide, rfl, rfl, rfl, by decide, by decide, hst2⟩, ?_⟩
  intro fuel
  unfold newHashFunc
  rw [buildLoop_step (fuel + 1) _ _ (by decide) hst, buildLoop_panic fuel _ (by decide) hst2]

end MPS
